import Mathlib

/-!
Shallow embedding of the `tape-sort` repository.

The C++ sources embedded here are:
* `src/lib/include/tape.h` — the tape device over a seekable byte stream
  (structure `Tape` and its operations, plus the saturating delay arithmetic
  `satDelay` and the byte-level models used for construction and `release`);
* `src/lib/include/sorter.h` — `subarray_info`, `peek`/`put`/`vec_to_tape`/
  `tape_to_vec`/`split`/`sort_impl` and the two public `tape::sort` overloads;
* `src/utilities/src/file-guard.cpp` — the scratch-file scope guard.

Machine integers: `size_t` arithmetic is modelled as `Nat` with explicit
`% 2 ^ 64` where overflow matters; tape cells (`int32_t`) are modelled as `Int`
(the sort never performs arithmetic on cell values, only comparator calls,
so no wrap-around can occur on them).

Randomness: the global `std::mt19937` generator is modelled by an arbitrary
draw function `g : Nat → Nat` with a running index; a draw of
`uniform_int_distribution(0, k)` is modelled as `g i % (k + 1)`, which ranges
over exactly the values the distribution can produce.
-/

/-! ### Comparators and strict weak orders -/

/-- A comparator on tape cells, as the C++ `Compare` template parameter. -/
abbrev Cmp := Int → Int → Bool

/-- `cmp` is a strict weak order: irreflexive, transitive, and with transitive
incomparability (the precondition of `std::sort` and of the spec's claims). -/
structure IsSWO (cmp : Cmp) : Prop where
  irrefl : ∀ a, cmp a a = false
  trans : ∀ a b c, cmp a b = true → cmp b c = true → cmp a c = true
  incompTrans : ∀ a b c, cmp a b = false → cmp b a = false →
    cmp b c = false → cmp c b = false → cmp a c = false ∧ cmp c a = false

theorem IsSWO.asymm {cmp : Cmp} (h : IsSWO cmp) {a b : Int}
    (hab : cmp a b = true) : cmp b a = false := by
  by_contra hba
  rw [Bool.not_eq_false] at hba
  have := h.trans a b a hab hba
  rw [h.irrefl a] at this
  exact Bool.false_ne_true this

/-- All elements of a list are pairwise incomparable under `cmp`. -/
def AllEquiv (cmp : Cmp) (l : List Int) : Prop :=
  ∀ x ∈ l, ∀ y ∈ l, cmp x y = false

theorem allEquiv_nil (cmp : Cmp) : AllEquiv cmp [] := by
  intro x hx
  cases hx

/-! ### `subarray_info` (sorter.h lines 13–65)

The C++ class keeps a comparator, a flag `equal_`, a reservoir sample
`element_` and a count `size_`.  `update` receives the raw generator draw `r`;
the C++ `uniform_int_distribution<>(0, size_)(gen) == 0` test is modelled as
`r % (size_ + 1) == 0`. -/

structure subarray_info where
  equal : Bool := true
  element : Int := 0
  size : Nat := 0
  deriving Repr, DecidableEq

/-- `subarray_info::update`:
`equal_ = equal_ && (size_ == 0 || !cmp(element_, value) && !cmp(value, element_))`,
reservoir-replace `element_` when the draw is 0, then `++size_`. -/
def subarray_info.update (cmp : Cmp) (i : subarray_info) (value : Int)
    (r : Nat) : subarray_info :=
  { equal := i.equal && (i.size == 0 || (!cmp i.element value && !cmp value i.element))
    element := if r % (i.size + 1) == 0 then value else i.element
    size := i.size + 1 }

/-- Number of comparator invocations made by one `update` call, following the
short-circuit evaluation of
`equal_ && (size_ == 0 || !cmp(element_, value) && !cmp(value, element_))`. -/
def subarray_info.updateCalls (cmp : Cmp) (i : subarray_info)
    (value : Int) : Nat :=
  if i.equal then
    if i.size == 0 then 0
    else if cmp i.element value then 1 else 2
  else 0

/-- The summary `i` faithfully describes the stream of values `vs` it has
consumed: exact count, the sample is one of the values, and the `equal` flag
holds exactly when all values are pairwise incomparable. -/
def ValidInfo (cmp : Cmp) (i : subarray_info) (vs : List Int) : Prop :=
  i.size = vs.length ∧
  (vs ≠ [] → i.element ∈ vs) ∧
  (i.equal = true ↔ AllEquiv cmp vs)

theorem validInfo_default (cmp : Cmp) : ValidInfo cmp {} [] := by
  refine ⟨rfl, fun h => absurd rfl h, ?_⟩
  simp only [show ({} : subarray_info).equal = true from rfl, true_iff]
  exact allEquiv_nil cmp

theorem allEquiv_append_singleton {cmp : Cmp} (h : IsSWO cmp) {vs : List Int}
    {e v : Int} (hvs : AllEquiv cmp vs) (he : e ∈ vs)
    (h1 : cmp e v = false) (h2 : cmp v e = false) :
    AllEquiv cmp (vs ++ [v]) := by
  intro x hx y hy
  rw [List.mem_append, List.mem_singleton] at hx hy
  rcases hx with hx | hx <;> rcases hy with hy | hy
  · exact hvs x hx y hy
  · rw [hy]
    exact (h.incompTrans x e v (hvs x hx e he) (hvs e he x hx) h1 h2).1
  · rw [hx]
    exact (h.incompTrans v e y h2 h1 (hvs e he y hy) (hvs y hy e he)).1
  · rw [hx, hy]
    exact h.irrefl v

theorem allEquiv_singleton (cmp : Cmp) (h : IsSWO cmp) (v : Int) :
    AllEquiv cmp [v] := by
  intro x hx y hy
  rw [List.mem_singleton] at hx hy
  rw [hx, hy]
  exact h.irrefl v

/-- One `update` preserves summary validity (for any generator draw `r`). -/
theorem validInfo_update {cmp : Cmp} (h : IsSWO cmp) {i : subarray_info}
    {vs : List Int} (hv : ValidInfo cmp i vs) (v : Int) (r : Nat) :
    ValidInfo cmp (i.update cmp v r) (vs ++ [v]) := by
  obtain ⟨hsize, helem, hequal⟩ := hv
  by_cases hvn : vs = []
  · subst hvn
    have hsz : i.size = 0 := by simpa using hsize
    have heqt : i.equal = true := hequal.mpr (allEquiv_nil cmp)
    refine ⟨?_, ?_, ?_⟩
    · simp [subarray_info.update, hsz]
    · intro _
      have hr : r % 1 = 0 := Nat.mod_one r
      simp [subarray_info.update, hsz, hr]
    · simp only [subarray_info.update, hsz, heqt, List.nil_append]
      simp only [beq_self_eq_true, Bool.true_or, Bool.and_self, true_iff]
      exact allEquiv_singleton cmp h v
  · have hszne : ¬(i.size == 0) = true := by
      simp only [beq_iff_eq, hsize]
      simpa using hvn
    have he := helem hvn
    refine ⟨?_, ?_, ?_⟩
    · simp [subarray_info.update, hsize]
    · intro _
      simp only [subarray_info.update]
      by_cases hr : (r % (i.size + 1) == 0) = true
      · simp only [hr, if_true]
        exact List.mem_append_right _ (List.mem_singleton_self v)
      · simp only [hr, if_false]
        exact List.mem_append_left _ he
    · simp only [subarray_info.update, Bool.and_eq_true, Bool.or_eq_true,
        Bool.and_eq_true, Bool.not_eq_true']
      constructor
      · rintro ⟨heq, hrest⟩
        rcases hrest with hsz | ⟨h1, h2⟩
        · exact absurd hsz hszne
        · exact allEquiv_append_singleton h (hequal.mp heq) he h1 h2
      · intro hall
        have hvs : AllEquiv cmp vs := by
          intro x hx y hy
          exact hall x (List.mem_append_left _ hx) y (List.mem_append_left _ hy)
        refine ⟨hequal.mpr hvs, Or.inr ?_⟩
        have hm : i.element ∈ vs ++ [v] := List.mem_append_left _ he
        have hm2 : v ∈ vs ++ [v] := List.mem_append_right _ (List.mem_singleton_self v)
        exact ⟨hall i.element hm v hm2, hall v hm2 i.element hm⟩

/-! ### The tape device (tape.h)

The sort engine only manipulates tapes through `get`/`set`/`next`/`prev`/
`seek`/`is_begin`/`is_end`, so for the sort claims the backing stream is
modelled at cell granularity: `data` is the list of cells the stream holds
from `stream_offset` on (all of the code's stream accesses are at byte
offsets `pos * 4 + stream_offset`).  Delays only sleep and are omitted from
the state model (they are treated separately for claim C9). -/

structure Tape where
  pos : Nat := 0
  size : Nat := 0
  stream_offset : Nat := 0
  data : List Int := []
  consistent : Bool := false
  buffer : Int := 0
  deriving Repr, DecidableEq

/-- `tape::seek_impl`: `pos += diff; consistent &= (diff == 0)`. -/
def Tape.seekImpl (t : Tape) (diff : Int) : Tape :=
  { t with pos := ((t.pos : Int) + diff).toNat
           consistent := t.consistent && (diff == 0) }

/-- `tape::next()` (state effect; `seek_impl(1)`). -/
def Tape.next (t : Tape) : Tape := t.seekImpl 1

/-- `tape::prev()` (state effect; `seek_impl(-1)`). -/
def Tape.prev (t : Tape) : Tape := t.seekImpl (-1)

/-- `tape::seek(diff)` (state effect; delay emulation is separate). -/
def Tape.seek (t : Tape) (diff : Int) : Tape := t.seekImpl diff

/-- `tape::is_end()`. -/
def Tape.is_end (t : Tape) : Bool := t.pos == t.size

/-- `tape::is_begin()`. -/
def Tape.is_begin (t : Tape) : Bool := t.pos == 0

/-- The value `tape::get()` returns: the cached buffer when `consistent`,
otherwise the medium cell at `pos` (via `get_value`). -/
def Tape.getv (t : Tape) : Int :=
  if t.consistent then t.buffer else t.data.getD t.pos 0

/-- The state after `tape::get()`: the cell is cached and `consistent` set. -/
def Tape.getT (t : Tape) : Tape :=
  { t with buffer := t.getv, consistent := true }

/-- `tape::set(v)` with an explicit success flag for the underlying
`set_value` stream write: `consistent = false;` then the write (which throws
on failure, leaving `consistent == false`), then
`buffer = new_value; consistent = true`.  Returns the resulting tape state
and whether the call succeeded. -/
def Tape.setE (t : Tape) (writeOk : Bool) (v : Int) : Tape × Bool :=
  let t1 : Tape := { t with consistent := false }
  if writeOk then
    ({ t1 with data := t1.data.set t1.pos v, buffer := v, consistent := true },
      true)
  else (t1, false)

/-- `tape::set(v)` on the success path (the only path the sort claims use). -/
def Tape.set (t : Tape) (v : Int) : Tape := (t.setE true v).1

/-- The cached-buffer invariant: if `consistent`, the medium at `pos` equals
`buffer`. -/
def TapeInv (t : Tape) : Prop :=
  t.consistent = true → t.buffer = t.data.getD t.pos 0

/-! ### Sub-segments of the medium -/

/-- Cells `[lo, lo + n)` of a medium `d`. -/
def seg (d : List Int) (lo n : Nat) : List Int := (d.drop lo).take n

theorem seg_zero (d : List Int) (lo : Nat) : seg d lo 0 = [] := rfl

theorem length_seg {d : List Int} {lo n : Nat} (h : lo + n ≤ d.length) :
    (seg d lo n).length = n := by
  simp only [seg, List.length_take, List.length_drop]
  omega

theorem seg_add (d : List Int) (lo m k : Nat) :
    seg d lo (m + k) = seg d lo m ++ seg d (lo + m) k := by
  simp only [seg, List.take_add, List.drop_drop]

theorem seg_eq_of_agree {d d' : List Int} {lo n : Nat}
    (h : ∀ j, lo ≤ j → j < lo + n → d'.getD j 0 = d.getD j 0)
    (hlen : d'.length = d.length) (hn : lo + n ≤ d.length) :
    seg d' lo n = seg d lo n := by
  apply List.ext_getElem
  · rw [length_seg (by omega), length_seg hn]
  · intro i h1 h2
    have hi : i < n := by
      have := length_seg (d := d) hn
      omega
    have e1 : (seg d' lo n)[i] = d'.getD (lo + i) 0 := by
      simp only [seg, List.getElem_take, List.getElem_drop]
      rw [List.getD_eq_getElem d' 0 (by omega)]
    have e2 : (seg d lo n)[i] = d.getD (lo + i) 0 := by
      simp only [seg, List.getElem_take, List.getElem_drop]
      rw [List.getD_eq_getElem d 0 (by omega)]
    rw [e1, e2]
    exact h (lo + i) (by omega) (by omega)

theorem getD_set_self {d : List Int} {p : Nat} {v : Int} (h : p < d.length) :
    (d.set p v).getD p 0 = v := by
  rw [List.getD_eq_getElem _ 0 (by simpa using h)]
  simp [List.getElem_set_self]

theorem getD_set_ne {d : List Int} {p j : Nat} {v : Int} (h : p ≠ j) :
    (d.set p v).getD j 0 = d.getD j 0 := by
  by_cases hj : j < d.length
  · rw [List.getD_eq_getElem _ 0 (by simpa using hj),
      List.getD_eq_getElem _ 0 hj]
    exact List.getElem_set_ne h _
  · rw [List.getD_eq_default _ 0 (by simpa using hj),
      List.getD_eq_default _ 0 (by omega)]

theorem seg_set_out {d : List Int} {p : Nat} {v : Int} {lo n : Nat}
    (hp : p < lo ∨ lo + n ≤ p) (hn : lo + n ≤ d.length) :
    seg (d.set p v) lo n = seg d lo n := by
  apply seg_eq_of_agree
  · intro j h1 h2
    exact getD_set_ne (by omega)
  · simp
  · exact hn

theorem seg_one {d : List Int} {lo : Nat} (h : lo < d.length) :
    seg d lo 1 = [d.getD lo 0] := by
  have hd : d.drop lo = d[lo] :: d.drop (lo + 1) := List.drop_eq_getElem_cons h
  simp only [seg, hd, List.take_succ_cons, List.take_zero]
  rw [List.getD_eq_getElem _ _ h]

/-! ### Tape primitives (sorter.h lines 67–154) -/

/-- `helpers::peek`: `current.prev(); return current.get();` — returns the
value read and the tape state afterwards. -/
def peek (t : Tape) : Int × Tape :=
  let t1 := t.prev
  (t1.getv, t1.getT)

/-- `helpers::put`: `current.set(value); current.next();`. -/
def put (t : Tape) (value : Int) : Tape := (t.set value).next

/-- `helpers::vec_to_tape`: `put` every vector element in order. -/
def vec_to_tape (vec : List Int) (t : Tape) : Tape := vec.foldl put t

/-- `helpers::tape_to_vec`: `while (!current.is_begin() && size--)`
`vec.push_back(peek(current))`. -/
def tape_to_vec (t : Tape) : Nat → List Int × Tape
  | 0 => ([], t)
  | n + 1 =>
    if t.is_begin then ([], t)
    else
      let (v, t1) := peek t
      let (vs, t2) := tape_to_vec t1 n
      (v :: vs, t2)

/-- The equal fast-path loop of `sort_impl`:
`for i in [0, n) { put(out, peek(current)); }`. -/
def drain : Nat → Tape → Tape → Tape × Tape
  | 0, cur, out => (cur, out)
  | n + 1, cur, out =>
    let (v, cur1) := peek cur
    drain n cur1 (put out v)

/-- `helpers::split` (sorter.h lines 134–154): peek `n` cells from `source`,
routing each to `left` when `cmp value key` and to `right` otherwise, while
updating one summary per destination.  `g`/`idx` thread the shared random
generator. -/
def split (cmp : Cmp) (g : Nat → Nat) :
    Nat → Tape → Tape → Tape → subarray_info → subarray_info → Int → Nat →
    Tape × Tape × Tape × subarray_info × subarray_info × Nat
  | 0, source, left, right, li, ri, _key, idx => (source, left, right, li, ri, idx)
  | n + 1, source, left, right, li, ri, key, idx =>
    let (value, source1) := peek source
    if cmp value key then
      split cmp g n source1 (put left value) right
        (li.update cmp value (g idx)) ri key (idx + 1)
    else
      split cmp g n source1 left (put right value)
        li (ri.update cmp value (g idx)) key (idx + 1)

theorem peek_spec (t : Tape) (h1 : 1 ≤ t.pos) :
    peek t = (t.data.getD (t.pos - 1) 0,
      { t with
        pos := t.pos - 1
        consistent := true
        buffer := t.data.getD (t.pos - 1) 0 }) := by
  have hpos : ((t.pos : Int) + (-1)).toNat = t.pos - 1 := by omega
  have hc : ((-1 : Int) == 0) = false := rfl
  simp [peek, Tape.prev, Tape.seekImpl, Tape.getT, Tape.getv, hpos, hc]

theorem put_spec (t : Tape) (v : Int) :
    put t v = { t with
                pos := t.pos + 1
                data := t.data.set t.pos v
                consistent := false
                buffer := v } := by
  have hpos : ((t.pos : Int) + 1).toNat = t.pos + 1 := by omega
  have hc : ((1 : Int) == 0) = false := rfl
  simp [put, Tape.set, Tape.setE, Tape.next, Tape.seekImpl, hpos, hc]

/-- Effect of `vec_to_tape`: head advances by the vector length, the vector
lands exactly at `[t.pos, t.pos + vec.length)`, cells below the entry head
are untouched. -/
theorem vec_to_tape_spec : ∀ (l : List Int) (t : Tape),
    t.pos + l.length ≤ t.size → t.size ≤ t.data.length →
    (vec_to_tape l t).pos = t.pos + l.length ∧
    (vec_to_tape l t).size = t.size ∧
    (vec_to_tape l t).data.length = t.data.length ∧
    (vec_to_tape l t).stream_offset = t.stream_offset ∧
    seg (vec_to_tape l t).data t.pos l.length = l ∧
    (∀ lo m, lo + m ≤ t.pos → seg (vec_to_tape l t).data lo m = seg t.data lo m)
  | [], t, _, _ => by
    refine ⟨by simp [vec_to_tape], by simp [vec_to_tape], by simp [vec_to_tape],
      by simp [vec_to_tape], rfl, fun lo m _ => by simp [vec_to_tape]⟩
  | v :: l, t, hroom, hlen => by
    have hstep : vec_to_tape (v :: l) t = vec_to_tape l (put t v) := by
      simp [vec_to_tape]
    have hput := put_spec t v
    have hlt : t.pos < t.data.length := by
      simp only [List.length_cons] at hroom
      omega
    have h1 : (put t v).pos + l.length ≤ (put t v).size := by
      rw [hput]
      simp only [List.length_cons] at hroom
      simpa using by omega
    have h2 : (put t v).size ≤ (put t v).data.length := by
      rw [hput]
      simpa using hlen
    obtain ⟨ihpos, ihsize, ihlen, ihoff, ihseg, ihpres⟩ :=
      vec_to_tape_spec l (put t v) h1 h2
    have hppos : (put t v).pos = t.pos + 1 := by rw [hput]
    have hpdata : (put t v).data = t.data.set t.pos v := by rw [hput]
    refine ⟨?_, ?_, ?_, ?_, ?_, ?_⟩
    · rw [hstep, ihpos, hppos]
      simp only [List.length_cons]
      omega
    · rw [hstep, ihsize, hput]
    · rw [hstep, ihlen, hput]
      simp
    · rw [hstep, ihoff, hput]
    · rw [hstep]
      have hsplit : (v :: l).length = 1 + l.length := by rw [List.length_cons]; omega
      rw [hsplit, seg_add]
      have hA : seg (vec_to_tape l (put t v)).data t.pos 1 = [v] := by
        have := ihpres t.pos 1 (by rw [hppos])
        rw [this, hpdata, seg_one (by simpa using hlt)]
        rw [getD_set_self hlt]
      have hB : seg (vec_to_tape l (put t v)).data (t.pos + 1) l.length = l := by
        rw [← hppos, ihseg]
      rw [hA, hB]
      simp
    · intro lo m hlo
      rw [hstep, ihpres lo m (by rw [hppos]; omega), hpdata]
      exact seg_set_out (Or.inr hlo) (by omega)

/-- Effect of `tape_to_vec` when the head has at least `n` cells before it
(and the medium covers the head): it reads exactly `n` cells, in reverse tape
order, and only moves the head. -/
theorem tape_to_vec_spec : ∀ (n : Nat) (t : Tape), n ≤ t.pos →
    t.pos ≤ t.data.length →
    (tape_to_vec t n).1 = (seg t.data (t.pos - n) n).reverse ∧
    (tape_to_vec t n).2.pos = t.pos - n ∧
    (tape_to_vec t n).2.data = t.data ∧
    (tape_to_vec t n).2.size = t.size ∧
    (tape_to_vec t n).2.stream_offset = t.stream_offset
  | 0, t, _, _ => ⟨by simp [tape_to_vec, seg_zero], by simp [tape_to_vec],
      rfl, rfl, rfl⟩
  | n + 1, t, h, hdl => by
    have hnb : t.is_begin = false := by
      simp only [Tape.is_begin, beq_eq_false_iff_ne, ne_eq]
      omega
    have hpk := peek_spec t (by omega)
    set t1 : Tape := { t with
      pos := t.pos - 1
      consistent := true
      buffer := t.data.getD (t.pos - 1) 0 } with ht1
    have hstep : tape_to_vec t (n + 1) =
        (t.data.getD (t.pos - 1) 0 :: (tape_to_vec t1 n).1,
          (tape_to_vec t1 n).2) := by
      simp only [tape_to_vec, hnb, Bool.false_eq_true, if_false, hpk]
    obtain ⟨ihv, ihpos, ihdata, ihsize, ihoff⟩ :=
      tape_to_vec_spec n t1 (by simp [ht1]; omega) (by simp [ht1]; omega)
    have hlo : t.pos - (n + 1) + n = t.pos - 1 := by omega
    refine ⟨?_, ?_, ?_, ?_, ?_⟩
    · rw [hstep]
      simp only [ihv, ht1]
      rw [show t.pos - 1 - n = t.pos - (n + 1) by omega]
      rw [seg_add t.data (t.pos - (n + 1)) n 1, hlo]
      rw [seg_one (by omega)]
      simp
    · rw [hstep]
      simp only [ihpos, ht1]
      omega
    · rw [hstep]; exact ihdata
    · rw [hstep]; exact ihsize
    · rw [hstep]; exact ihoff

/-- Effect of the equal fast-path loop: `n` cells just below `cur`'s head are
copied (in reversed order, as `peek` walks backward) to `out` at the head;
only the heads move otherwise. -/
theorem drain_spec : ∀ (n : Nat) (cur out : Tape),
    n ≤ cur.pos → cur.pos ≤ cur.data.length →
    out.pos + n ≤ out.size → out.size ≤ out.data.length →
    (drain n cur out).1.pos = cur.pos - n ∧
    (drain n cur out).1.data = cur.data ∧
    (drain n cur out).1.size = cur.size ∧
    (drain n cur out).1.stream_offset = cur.stream_offset ∧
    (drain n cur out).2.pos = out.pos + n ∧
    (drain n cur out).2.size = out.size ∧
    (drain n cur out).2.data.length = out.data.length ∧
    (drain n cur out).2.stream_offset = out.stream_offset ∧
    seg (drain n cur out).2.data out.pos n =
      (seg cur.data (cur.pos - n) n).reverse ∧
    (∀ lo m, lo + m ≤ out.pos → seg (drain n cur out).2.data lo m = seg out.data lo m)
  | 0, cur, out, _, _, _, _ => by
    refine ⟨by simp [drain], rfl, rfl, rfl, by simp [drain], rfl, rfl, rfl,
      by simp [drain, seg_zero], fun lo m _ => rfl⟩
  | n + 1, cur, out, hc, hcl, ho, hol => by
    have hpk := peek_spec cur (by omega)
    set cur1 : Tape := { cur with
      pos := cur.pos - 1
      consistent := true
      buffer := cur.data.getD (cur.pos - 1) 0 } with hcur1
    set v := cur.data.getD (cur.pos - 1) 0 with hv
    have hstep : drain (n + 1) cur out = drain n cur1 (put out v) := by
      simp only [drain, hpk]
    have hput := put_spec out v
    obtain ⟨ih1, ih2, ih3, ih4, ih5, ih6, ih7, ih8, ih9, ih10⟩ :=
      drain_spec n cur1 (put out v)
        (by simp [hcur1]; omega) (by simp [hcur1]; omega)
        (by rw [hput]; simpa using by omega)
        (by rw [hput]; simpa using hol)
    have hset : (put out v).data = out.data.set out.pos v := by rw [hput]
    have hsetp : (put out v).pos = out.pos + 1 := by rw [hput]
    refine ⟨?_, ?_, ?_, ?_, ?_, ?_, ?_, ?_, ?_, ?_⟩
    · rw [hstep, ih1]
      simp only [hcur1]
      omega
    · rw [hstep, ih2]
    · rw [hstep, ih3]
    · rw [hstep, ih4]
    · rw [hstep, ih5, hsetp]
      omega
    · rw [hstep, ih6, hput]
    · rw [hstep, ih7, hput]
      simp
    · rw [hstep, ih8, hput]
    · rw [hstep]
      have hsp : n + 1 = 1 + n := by omega
      rw [hsp, seg_add]
      have hA : seg (drain n cur1 (put out v)).2.data out.pos 1 = [v] := by
        rw [ih10 out.pos 1 (by rw [hsetp]), hset,
          seg_one (by simpa using by omega)]
        rw [getD_set_self (by omega)]
      have hB : seg (drain n cur1 (put out v)).2.data (out.pos + 1) n =
          (seg cur1.data (cur1.pos - n) n).reverse := by
        rw [← hsetp, ih9]
      rw [hA, hB]
      have hR : seg cur.data (cur.pos - (1 + n)) (1 + n) =
          seg cur.data (cur.pos - (1 + n)) n ++ [v] := by
        rw [Nat.add_comm 1 n, seg_add]
        rw [show cur.pos - (n + 1) + n = cur.pos - 1 by omega]
        rw [seg_one (by omega), hv]
      rw [hR]
      have hC : cur1.data = cur.data := rfl
      have hD : cur1.pos - n = cur.pos - (1 + n) := by
        simp only [hcur1]
        omega
      rw [hC, hD]
      simp
    · intro lo m hlo
      rw [hstep, ih10 lo m (by rw [hsetp]; omega), hset]
      exact seg_set_out (Or.inr hlo) (by omega)

/-- Effect of `helpers::split`: `n` cells leave `source` (head back by `n`,
medium untouched); the cells satisfying `cmp value key` land at `left`'s head
in peek order, the rest at `right`'s head; the summaries absorb exactly the
values their tape received. -/
theorem split_spec (cmp : Cmp) (g : Nat → Nat) (hswo : IsSWO cmp) (key : Int) :
    ∀ (n : Nat) (src left right : Tape) (li ri : subarray_info)
      (idx : Nat) (accL accR : List Int)
      (src2 left2 right2 : Tape) (li2 ri2 : subarray_info) (idx2 : Nat),
    n ≤ src.pos → src.pos ≤ src.data.length →
    left.pos + n ≤ left.size → left.size ≤ left.data.length →
    right.pos + n ≤ right.size → right.size ≤ right.data.length →
    ValidInfo cmp li accL → ValidInfo cmp ri accR →
    split cmp g n src left right li ri key idx =
      (src2, left2, right2, li2, ri2, idx2) →
    (src2.pos = src.pos - n ∧ src2.data = src.data ∧
     src2.size = src.size ∧ src2.stream_offset = src.stream_offset) ∧
    (left2.pos = left.pos +
        (((seg src.data (src.pos - n) n).reverse.filter
          (fun v => cmp v key)).length) ∧
     left2.size = left.size ∧ left2.data.length = left.data.length ∧
     left2.stream_offset = left.stream_offset ∧
     seg left2.data left.pos
        (((seg src.data (src.pos - n) n).reverse.filter
          (fun v => cmp v key)).length) =
       (seg src.data (src.pos - n) n).reverse.filter (fun v => cmp v key) ∧
     (∀ lo m, lo + m ≤ left.pos → seg left2.data lo m = seg left.data lo m)) ∧
    (right2.pos = right.pos +
        (((seg src.data (src.pos - n) n).reverse.filter
          (fun v => !cmp v key)).length) ∧
     right2.size = right.size ∧ right2.data.length = right.data.length ∧
     right2.stream_offset = right.stream_offset ∧
     seg right2.data right.pos
        (((seg src.data (src.pos - n) n).reverse.filter
          (fun v => !cmp v key)).length) =
       (seg src.data (src.pos - n) n).reverse.filter (fun v => !cmp v key) ∧
     (∀ lo m, lo + m ≤ right.pos → seg right2.data lo m = seg right.data lo m)) ∧
    ValidInfo cmp li2
      (accL ++ (seg src.data (src.pos - n) n).reverse.filter (fun v => cmp v key)) ∧
    ValidInfo cmp ri2
      (accR ++ (seg src.data (src.pos - n) n).reverse.filter (fun v => !cmp v key))
  | 0, src, left, right, li, ri, idx, accL, accR,
      src2, left2, right2, li2, ri2, idx2 => by
    intro _ _ _ _ _ _ hvl hvr heq
    simp only [split, Prod.mk.injEq] at heq
    obtain ⟨e1, e2, e3, e4, e5, _⟩ := heq
    subst e1; subst e2; subst e3; subst e4; subst e5
    exact ⟨⟨by omega, rfl, rfl, rfl⟩,
      ⟨by simp [seg_zero], rfl, rfl, rfl, by simp [seg_zero], fun lo m _ => rfl⟩,
      ⟨by simp [seg_zero], rfl, rfl, rfl, by simp [seg_zero], fun lo m _ => rfl⟩,
      by simpa [seg_zero] using hvl, by simpa [seg_zero] using hvr⟩
  | n + 1, src, left, right, li, ri, idx, accL, accR,
      src2, left2, right2, li2, ri2, idx2 => by
    intro hs hsl hl hll hr hrl hvl hvr heq
    have hpk := peek_spec src (by omega)
    set src1 : Tape := { src with
      pos := src.pos - 1
      consistent := true
      buffer := src.data.getD (src.pos - 1) 0 } with hsrc1
    set v := src.data.getD (src.pos - 1) 0 with hv
    have hvals : seg src.data (src.pos - (n + 1)) (n + 1) =
        seg src.data (src.pos - (n + 1)) n ++ [v] := by
      rw [seg_add]
      rw [show src.pos - (n + 1) + n = src.pos - 1 by omega]
      rw [seg_one (by omega), hv]
    have hvals1 : seg src1.data (src1.pos - n) n =
        seg src.data (src.pos - (n + 1)) n := by
      have : src1.data = src.data := rfl
      rw [this]
      congr 1
      simp only [hsrc1]
      omega
    have hrev : (seg src.data (src.pos - (n + 1)) (n + 1)).reverse =
        v :: (seg src1.data (src1.pos - n) n).reverse := by
      rw [hvals, hvals1]
      simp
    by_cases hc : cmp v key = true
    · have hstep : split cmp g (n + 1) src left right li ri key idx =
          split cmp g n src1 (put left v) right
            (li.update cmp v (g idx)) ri key (idx + 1) := by
        simp only [split, hpk, hc, if_true]
      rw [hstep] at heq
      have hput := put_spec left v
      obtain ⟨ihS, ihL, ihR, ihVL, ihVR⟩ :=
        split_spec cmp g hswo key n src1 (put left v) right
          (li.update cmp v (g idx)) ri (idx + 1) (accL ++ [v]) accR
          src2 left2 right2 li2 ri2 idx2
          (by simp only [hsrc1]; omega) (by simp only [hsrc1]; omega)
          (by rw [hput]; simpa using by omega)
          (by rw [hput]; simpa using hll)
          (by omega) hrl
          (validInfo_update hswo hvl v (g idx)) hvr heq
      obtain ⟨ihS1, ihS2, ihS3, ihS4⟩ := ihS
      obtain ⟨ihL1, ihL2, ihL3, ihL4, ihL5, ihL6⟩ := ihL
      obtain ⟨ihR1, ihR2, ihR3, ihR4, ihR5, ihR6⟩ := ihR
      have hfL : (seg src.data (src.pos - (n + 1)) (n + 1)).reverse.filter
          (fun v => cmp v key) =
          v :: ((seg src1.data (src1.pos - n) n).reverse.filter
            (fun v => cmp v key)) := by
        rw [hrev]
        simp [List.filter_cons, hc]
      have hfR : (seg src.data (src.pos - (n + 1)) (n + 1)).reverse.filter
          (fun v => !cmp v key) =
          (seg src1.data (src1.pos - n) n).reverse.filter
            (fun v => !cmp v key) := by
        rw [hrev]
        simp [List.filter_cons, hc]
      have hsetp : (put left v).pos = left.pos + 1 := by rw [hput]
      have hset : (put left v).data = left.data.set left.pos v := by rw [hput]
      refine ⟨⟨?_, ihS2, ihS3, ihS4⟩, ⟨?_, ?_, ?_, ?_, ?_, ?_⟩,
        ⟨?_, ihR2, ihR3, ihR4, ?_, ihR6⟩, ?_, ?_⟩
      · rw [ihS1]
        simp only [hsrc1]
        omega
      · rw [ihL1, hsetp, hfL]
        simp only [List.length_cons]
        omega
      · rw [ihL2, hput]
      · rw [ihL3, hput]
        simp
      · rw [ihL4, hput]
      · rw [hfL]
        simp only [List.length_cons]
        rw [show ((seg src1.data (src1.pos - n) n).reverse.filter
            (fun v => cmp v key)).length + 1 =
          1 + ((seg src1.data (src1.pos - n) n).reverse.filter
            (fun v => cmp v key)).length by omega]
        rw [seg_add]
        have hA : seg left2.data left.pos 1 = [v] := by
          rw [ihL6 left.pos 1 (by rw [hsetp]), hset,
            seg_one (by simpa using by omega)]
          rw [getD_set_self (by omega)]
        have hB : seg left2.data (left.pos + 1)
            ((List.filter (fun v => cmp v key)
              (seg src1.data (src1.pos - n) n).reverse).length) =
            (seg src1.data (src1.pos - n) n).reverse.filter
              (fun v => cmp v key) := by
          rw [← hsetp, ihL5]
        rw [hA, hB]
        simp
      · intro lo m hlo
        rw [ihL6 lo m (by rw [hsetp]; omega), hset]
        exact seg_set_out (Or.inr hlo) (by omega)
      · rw [ihR1, hfR]
      · rw [hfR, ihR5]
      · rw [hfL]
        have : accL ++ v :: ((seg src1.data (src1.pos - n) n).reverse.filter
            (fun v => cmp v key)) = (accL ++ [v]) ++
            ((seg src1.data (src1.pos - n) n).reverse.filter
              (fun v => cmp v key)) := by
          simp
        rw [this]
        exact ihVL
      · rw [hfR]
        exact ihVR
    · have hcf : cmp v key = false := by
        simpa using hc
      have hstep : split cmp g (n + 1) src left right li ri key idx =
          split cmp g n src1 left (put right v)
            li (ri.update cmp v (g idx)) key (idx + 1) := by
        simp only [split, hpk, hcf, Bool.false_eq_true, if_false]
      rw [hstep] at heq
      have hput := put_spec right v
      obtain ⟨ihS, ihL, ihR, ihVL, ihVR⟩ :=
        split_spec cmp g hswo key n src1 left (put right v)
          li (ri.update cmp v (g idx)) (idx + 1) accL (accR ++ [v])
          src2 left2 right2 li2 ri2 idx2
          (by simp only [hsrc1]; omega) (by simp only [hsrc1]; omega)
          (by omega) hll
          (by rw [hput]; simpa using by omega)
          (by rw [hput]; simpa using hrl)
          hvl (validInfo_update hswo hvr v (g idx)) heq
      obtain ⟨ihS1, ihS2, ihS3, ihS4⟩ := ihS
      obtain ⟨ihL1, ihL2, ihL3, ihL4, ihL5, ihL6⟩ := ihL
      obtain ⟨ihR1, ihR2, ihR3, ihR4, ihR5, ihR6⟩ := ihR
      have hfL : (seg src.data (src.pos - (n + 1)) (n + 1)).reverse.filter
          (fun v => cmp v key) =
          (seg src1.data (src1.pos - n) n).reverse.filter
            (fun v => cmp v key) := by
        rw [hrev]
        simp [List.filter_cons, hcf]
      have hfR : (seg src.data (src.pos - (n + 1)) (n + 1)).reverse.filter
          (fun v => !cmp v key) =
          v :: ((seg src1.data (src1.pos - n) n).reverse.filter
            (fun v => !cmp v key)) := by
        rw [hrev]
        simp [List.filter_cons, hcf]
      have hsetp : (put right v).pos = right.pos + 1 := by rw [hput]
      have hset : (put right v).data = right.data.set right.pos v := by rw [hput]
      refine ⟨⟨?_, ihS2, ihS3, ihS4⟩, ⟨?_, ihL2, ihL3, ihL4, ?_, ihL6⟩,
        ⟨?_, ?_, ?_, ?_, ?_, ?_⟩, ?_, ?_⟩
      · rw [ihS1]
        simp only [hsrc1]
        omega
      · rw [ihL1, hfL]
      · rw [hfL, ihL5]
      · rw [ihR1, hsetp, hfR]
        simp only [List.length_cons]
        omega
      · rw [ihR2, hput]
      · rw [ihR3, hput]
        simp
      · rw [ihR4, hput]
      · rw [hfR]
        simp only [List.length_cons]
        rw [show ((seg src1.data (src1.pos - n) n).reverse.filter
            (fun v => !cmp v key)).length + 1 =
          1 + ((seg src1.data (src1.pos - n) n).reverse.filter
            (fun v => !cmp v key)).length by omega]
        rw [seg_add]
        have hA : seg right2.data right.pos 1 = [v] := by
          rw [ihR6 right.pos 1 (by rw [hsetp]), hset,
            seg_one (by simpa using by omega)]
          rw [getD_set_self (by omega)]
        have hB : seg right2.data (right.pos + 1)
            ((List.filter (fun v => !cmp v key)
              (seg src1.data (src1.pos - n) n).reverse).length) =
            (seg src1.data (src1.pos - n) n).reverse.filter
              (fun v => !cmp v key) := by
          rw [← hsetp, ihR5]
        rw [hA, hB]
        simp
      · intro lo m hlo
        rw [ihR6 lo m (by rw [hsetp]; omega), hset]
        exact seg_set_out (Or.inr hlo) (by omega)
      · rw [hfL]
        exact ihVL
      · rw [hfR]
        have : accR ++ v :: ((seg src1.data (src1.pos - n) n).reverse.filter
            (fun v => !cmp v key)) = (accR ++ [v]) ++
            ((seg src1.data (src1.pos - n) n).reverse.filter
              (fun v => !cmp v key)) := by
          simp
        rw [this]
        exact ihVR

/-! ### In-memory comparison sort (model of `std::sort` with a comparator)

`std::sort(vec.begin(), vec.end(), compare)` is specified only as a comparison
sort producing a sequence sorted with respect to `compare`; it is modelled
here by insertion sort. -/

def insertCmp (cmp : Cmp) (v : Int) : List Int → List Int
  | [] => [v]
  | w :: ws => if cmp v w then v :: w :: ws else w :: insertCmp cmp v ws

def stdSort (cmp : Cmp) (l : List Int) : List Int := l.foldr (insertCmp cmp) []

/-- The output order the sort establishes: no element strictly precedes an
earlier one (`¬cmp(y_j, y_i)` for `i < j`). -/
def SortedBy (cmp : Cmp) (l : List Int) : Prop :=
  l.Pairwise (fun a b => cmp b a = false)

theorem insertCmp_perm (cmp : Cmp) (v : Int) :
    ∀ l : List Int, (insertCmp cmp v l).Perm (v :: l)
  | [] => List.Perm.refl _
  | w :: ws => by
    by_cases hc : cmp v w = true
    · simp only [insertCmp, hc, if_true]
      exact List.Perm.refl _
    · simp only [insertCmp, hc, Bool.false_eq_true, if_false]
      exact ((insertCmp_perm cmp v ws).cons w).trans (List.Perm.swap v w ws)

theorem stdSort_perm (cmp : Cmp) : ∀ l : List Int, (stdSort cmp l).Perm l
  | [] => List.Perm.refl _
  | v :: l => by
    have h1 : stdSort cmp (v :: l) = insertCmp cmp v (stdSort cmp l) := rfl
    rw [h1]
    exact ((insertCmp_perm cmp v (stdSort cmp l)).trans
      ((stdSort_perm cmp l).cons v))

theorem insertCmp_pairwise {cmp : Cmp} (h : IsSWO cmp) (v : Int) :
    ∀ l : List Int, SortedBy cmp l → SortedBy cmp (insertCmp cmp v l)
  | [], _ => List.pairwise_singleton _ v
  | w :: ws, hs => by
    rw [SortedBy, List.pairwise_cons] at hs
    obtain ⟨hw, hws⟩ := hs
    by_cases hc : cmp v w = true
    · simp only [insertCmp, hc, if_true, SortedBy, List.pairwise_cons]
      refine ⟨?_, ?_, hws⟩
      · intro y hy
        rcases List.mem_cons.mp hy with hy | hy
        · rw [hy]
          exact h.asymm hc
        · by_contra hyv
          rw [Bool.not_eq_false] at hyv
          have := h.trans y v w hyv hc
          rw [hw y hy] at this
          exact Bool.false_ne_true this
      · exact hw
    · have hcf : cmp v w = false := by simpa using hc
      simp only [insertCmp, hc, Bool.false_eq_true, if_false, SortedBy,
        List.pairwise_cons]
      refine ⟨?_, insertCmp_pairwise h v ws hws⟩
      intro y hy
      have := (insertCmp_perm cmp v ws).mem_iff.mp hy
      rcases List.mem_cons.mp this with hy2 | hy2
      · rw [hy2]
        exact hcf
      · exact hw y hy2

theorem stdSort_sortedBy {cmp : Cmp} (h : IsSWO cmp) :
    ∀ l : List Int, SortedBy cmp (stdSort cmp l)
  | [] => List.Pairwise.nil
  | v :: l => insertCmp_pairwise h v (stdSort cmp l) (stdSort_sortedBy h l)

theorem pairwise_of_forall_mem {R : Int → Int → Prop} :
    ∀ {l : List Int}, (∀ x ∈ l, ∀ y ∈ l, R x y) → l.Pairwise R
  | [], _ => List.Pairwise.nil
  | a :: l, h => by
    rw [List.pairwise_cons]
    refine ⟨fun y hy => h a (List.mem_cons_self a l) y (List.mem_cons_of_mem a hy), ?_⟩
    exact pairwise_of_forall_mem fun x hx y hy =>
      h x (List.mem_cons_of_mem a hx) y (List.mem_cons_of_mem a hy)

theorem sortedBy_of_allEquiv {cmp : Cmp} {vs l : List Int}
    (hall : AllEquiv cmp vs) (hsub : ∀ x ∈ l, x ∈ vs) : SortedBy cmp l :=
  pairwise_of_forall_mem fun x hx y hy => hall y (hsub y hy) x (hsub x hx)

theorem filter_append_perm_self (p : Int → Bool) :
    ∀ l : List Int, (l.filter p ++ l.filter (fun x => !p x)).Perm l
  | [] => List.Perm.refl _
  | a :: l => by
    by_cases hp : p a = true
    · simp only [List.filter_cons, hp, if_true, Bool.not_true,
        Bool.false_eq_true, if_false]
      exact (filter_append_perm_self p l).cons a
    · have hpf : p a = false := by simpa using hp
      simp only [List.filter_cons, hpf, Bool.false_eq_true, if_false,
        Bool.not_false, if_true]
      exact List.perm_middle.trans ((filter_append_perm_self p l).cons a)

/-! ### `sort_impl` (sorter.h lines 166–191) -/

/-- `helpers::sort_impl`, with explicit recursion fuel (`none` = fuel ran
out; the C++ recursion has no a-priori depth bound because the random pivot
may fail to shrink the right partition).  Tuple order mirrors the C++
parameter order `(out, current, tmp1, tmp2)`; recursive calls rotate the
scratch tapes exactly as the source does. -/
def sort_impl (cmp : Cmp) (g : Nat → Nat) (chunk_size : Nat) :
    Nat → Tape → Tape → Tape → Tape → subarray_info → Nat →
    Option (Tape × Tape × Tape × Tape × Nat)
  | 0, _, _, _, _, _, _ => none
  | fuel + 1, out, current, tmp1, tmp2, info, idx =>
    if info.size = 0 then some (out, current, tmp1, tmp2, idx)
    else if info.equal then
      let (current1, out1) := drain info.size current out
      some (out1, current1, tmp1, tmp2, idx)
    else if info.size ≤ chunk_size then
      let (vec, current1) := tape_to_vec current info.size
      let out1 := vec_to_tape (stdSort cmp vec) out
      some (out1, current1, tmp1, tmp2, idx)
    else
      match split cmp g info.size current tmp1 tmp2 {} {} info.element idx with
      | (current1, tmp1a, tmp2a, left_info, right_info, idx1) =>
        match sort_impl cmp g chunk_size fuel out tmp1a current1 tmp2a left_info idx1 with
        | none => none
        | some (out1, tmp1b, current2, tmp2b, idx2) =>
          match sort_impl cmp g chunk_size fuel out1 tmp2b current2 tmp1b right_info idx2 with
          | none => none
          | some (out2, tmp2c, current3, tmp1c, idx3) =>
            some (out2, current3, tmp1c, tmp2c, idx3)

/-- A scratch tape is restored: same head, geometry, and cells below the head. -/
def ScratchPres (t t2 : Tape) : Prop :=
  t2.pos = t.pos ∧ t2.size = t.size ∧ t2.data.length = t.data.length ∧
  t2.stream_offset = t.stream_offset ∧
  ∀ lo m, lo + m ≤ t.pos → seg t2.data lo m = seg t.data lo m

/-- A tape whose topmost `n` cells were consumed: head back by `n`, cells
below the new head untouched. -/
def ConsumedPres (n : Nat) (t t2 : Tape) : Prop :=
  t2.pos = t.pos - n ∧ t2.size = t.size ∧ t2.data.length = t.data.length ∧
  t2.stream_offset = t.stream_offset ∧
  ∀ lo m, lo + m ≤ t.pos - n → seg t2.data lo m = seg t.data lo m

/-- The output tape received a sorted permutation of `vals` at its head. -/
def OutWrite (cmp : Cmp) (vals : List Int) (t t2 : Tape) : Prop :=
  t2.pos = t.pos + vals.length ∧ t2.size = t.size ∧
  t2.data.length = t.data.length ∧ t2.stream_offset = t.stream_offset ∧
  (seg t2.data t.pos vals.length).Perm vals ∧
  SortedBy cmp (seg t2.data t.pos vals.length) ∧
  ∀ lo m, lo + m ≤ t.pos → seg t2.data lo m = seg t.data lo m

theorem scratchPres_refl (t : Tape) : ScratchPres t t :=
  ⟨rfl, rfl, rfl, rfl, fun _ _ _ => rfl⟩

theorem scratchPres_trans {t t1 t2 : Tape} (h1 : ScratchPres t t1)
    (h2 : ScratchPres t1 t2) : ScratchPres t t2 := by
  obtain ⟨a1, a2, a3, a4, a5⟩ := h1
  obtain ⟨b1, b2, b3, b4, b5⟩ := h2
  exact ⟨by omega, by omega, by omega, by rw [b4, a4],
    fun lo m hm => by rw [b5 lo m (by omega), a5 lo m hm]⟩

/-- Partial correctness of `sort_impl`: whenever it returns (for any fuel,
chunk size, and generator draws), the `info.size` cells below `current`'s
head leave as a sorted permutation at `out`'s head, `current`'s head drops by
`info.size`, and the two scratch tapes are restored (head position and cells
below it). -/
theorem sort_impl_spec (cmp : Cmp) (g : Nat → Nat) (hswo : IsSWO cmp)
    (chunk_size : Nat) :
    ∀ (fuel : Nat) (out cur a b : Tape) (info : subarray_info) (idx : Nat)
      (out2 cur2 a2 b2 : Tape) (idx2 : Nat),
    ValidInfo cmp info (seg cur.data (cur.pos - info.size) info.size) →
    info.size ≤ cur.pos → cur.pos ≤ cur.size → cur.size ≤ cur.data.length →
    out.pos + info.size ≤ out.size → out.size ≤ out.data.length →
    a.pos + info.size ≤ a.size → a.size ≤ a.data.length →
    b.pos + info.size ≤ b.size → b.size ≤ b.data.length →
    sort_impl cmp g chunk_size fuel out cur a b info idx =
      some (out2, cur2, a2, b2, idx2) →
    OutWrite cmp (seg cur.data (cur.pos - info.size) info.size) out out2 ∧
    ConsumedPres info.size cur cur2 ∧ ScratchPres a a2 ∧ ScratchPres b b2 := by
  intro fuel
  induction fuel with
  | zero =>
    intro out cur a b info idx out2 cur2 a2 b2 idx2 _ _ _ _ _ _ _ _ _ _ heq
    simp [sort_impl] at heq
  | succ fuel ih =>
    intro out cur a b info idx out2 cur2 a2 b2 idx2 hvi h1 h2 h3 h4 h5 h6 h7 h8 h9 heq
    have hvlen : (seg cur.data (cur.pos - info.size) info.size).length = info.size :=
      length_seg (by omega)
    by_cases hsz : info.size = 0
    · simp only [sort_impl, hsz, if_true, Option.some.injEq, Prod.mk.injEq] at heq
      obtain ⟨e1, e2, e3, e4, _⟩ := heq
      subst e1; subst e2; subst e3; subst e4
      rw [hsz]
      refine ⟨⟨by simp [seg_zero], rfl, rfl, rfl, by simp [seg_zero], ?_, fun lo m _ => rfl⟩,
        ⟨by omega, rfl, rfl, rfl, fun lo m _ => rfl⟩,
        scratchPres_refl a, scratchPres_refl b⟩
      simp only [seg_zero]
      exact List.Pairwise.nil
    · by_cases heql : info.equal = true
      · rcases hdr : drain info.size cur out with ⟨cur1, out1⟩
        simp only [sort_impl, hsz, if_false, heql, if_true, hdr,
          Option.some.injEq, Prod.mk.injEq] at heq
        obtain ⟨e1, e2, e3, e4, _⟩ := heq
        subst e1; subst e2; subst e3; subst e4
        obtain ⟨d1, d2, d3, d4, d5, d6, d7, d8, d9, d10⟩ :=
          drain_spec info.size cur out h1 (by omega) h4 h5
        rw [hdr] at d1 d2 d3 d4 d5 d6 d7 d8 d9 d10
        simp only at d1 d2 d3 d4 d5 d6 d7 d8 d9 d10
        have hall : AllEquiv cmp (seg cur.data (cur.pos - info.size) info.size) :=
          hvi.2.2.mp heql
        refine ⟨⟨by rw [d5, hvlen], d6, d7, d8, ?_, ?_, d10⟩,
          ⟨d1, d3, by rw [d2], d4, fun lo m hm => by rw [d2]⟩,
          scratchPres_refl a, scratchPres_refl b⟩
        · rw [hvlen, d9]
          exact List.reverse_perm _
        · rw [hvlen, d9]
          exact sortedBy_of_allEquiv hall (fun x hx => List.mem_reverse.mp hx)
      · by_cases hchk : info.size ≤ chunk_size
        · rcases htv : tape_to_vec cur info.size with ⟨vec, cur1⟩
          simp only [sort_impl, hsz, if_false, heql, hchk, if_true,
            Bool.false_eq_true, htv, Option.some.injEq, Prod.mk.injEq] at heq
          obtain ⟨e1, e2, e3, e4, _⟩ := heq
          subst e1; subst e2; subst e3; subst e4
          obtain ⟨t1, t2, t3, t4, t5⟩ := tape_to_vec_spec info.size cur h1 (by omega)
          rw [htv] at t1 t2 t3 t4 t5
          simp only at t1 t2 t3 t4 t5
          have hslen : (stdSort cmp vec).length = info.size := by
            rw [(stdSort_perm cmp vec).length_eq, t1]
            simp [hvlen]
          obtain ⟨v1, v2, v3, v4, v5, v6⟩ :=
            vec_to_tape_spec (stdSort cmp vec) out (by omega) h5
          have hlen2 : (seg cur.data (cur.pos - info.size) info.size).length =
              (stdSort cmp vec).length := by
            rw [hvlen, hslen]
          refine ⟨⟨by rw [v1, hslen, hvlen], v2, v3, v4, ?_, ?_, v6⟩,
            ⟨t2, t4, by rw [t3], t5, fun lo m hm => by rw [t3]⟩,
            scratchPres_refl a, scratchPres_refl b⟩
          · rw [hlen2, v5]
            have hvp : vec.Perm (seg cur.data (cur.pos - info.size) info.size) := by
              rw [t1]
              exact List.reverse_perm _
            exact (stdSort_perm cmp vec).trans hvp
          · rw [hlen2, v5]
            exact stdSort_sortedBy hswo vec
        · have hne : info.equal = false := by simpa using heql
          rcases hsp : split cmp g info.size cur a b {} {} info.element idx with
            ⟨cur1, a1, b1, li, ri, idx1⟩
          simp only [sort_impl, hsz, if_false, hne, hchk, Bool.false_eq_true,
            hsp] at heq
          rcases hr1 : sort_impl cmp g chunk_size fuel out a1 cur1 b1 li idx1 with
            _ | ⟨out1, a2t, cur2t, b2t, idx2t⟩
          · rw [hr1] at heq
            exact Option.noConfusion heq
          rw [hr1] at heq
          replace heq :
              (match sort_impl cmp g chunk_size fuel out1 b2t cur2t a2t ri idx2t with
                | none => none
                | some (o, t2c, c3, t1c, i3) => some (o, c3, t1c, t2c, i3)) =
                some (out2, cur2, a2, b2, idx2) := heq
          rcases hr2 : sort_impl cmp g chunk_size fuel out1 b2t cur2t a2t ri idx2t with
            _ | ⟨out2t, b3t, cur3t, a3t, idx3t⟩
          · rw [hr2] at heq
            exact Option.noConfusion heq
          rw [hr2] at heq
          replace heq : some (out2t, cur3t, a3t, b3t, idx3t) =
              some (out2, cur2, a2, b2, idx2) := heq
          simp only [Option.some.injEq, Prod.mk.injEq] at heq
          obtain ⟨e1, e2, e3, e4, _⟩ := heq
          subst e1; subst e2; subst e3; subst e4
          -- split postconditions
          obtain ⟨⟨hS1, hS2, hS3, hS4⟩, ⟨hL1, hL2, hL3, hL4, hL5, hL6⟩,
              ⟨hR1, hR2, hR3, hR4, hR5, hR6⟩, hVL, hVR⟩ :=
            split_spec cmp g hswo info.element info.size cur a b {} {} idx [] []
              cur1 a1 b1 li ri idx1 h1 (by omega) h6 h7 h8 h9
              (validInfo_default cmp) (validInfo_default cmp) hsp
          rw [List.nil_append] at hVL hVR
          set vals := seg cur.data (cur.pos - info.size) info.size with hvals
          set ls := vals.reverse.filter (fun v => cmp v info.element) with hls
          set rs := vals.reverse.filter (fun v => !cmp v info.element) with hrs
          have hk : ls.length + rs.length = info.size := by
            have hp := (filter_append_perm_self (fun v => cmp v info.element)
              vals.reverse).length_eq
            simp only [List.length_append, List.length_reverse] at hp
            rw [← hls, ← hrs] at hp
            omega
          have hlisz : li.size = ls.length := by
            have := hVL.1
            omega
          have hrisz : ri.size = rs.length := by
            have := hVR.1
            omega
          -- first recursive call
          have hseg1 : seg a1.data (a1.pos - li.size) li.size = ls := by
            rw [hlisz, hL1]
            rw [show a.pos + ls.length - ls.length = a.pos by omega]
            exact hL5
          obtain ⟨hO1, hC1, hScur1, hSb1⟩ :=
            ih out a1 cur1 b1 li idx1 out1 a2t cur2t b2t idx2t
              (by rw [hseg1]; exact hVL)
              (by rw [hlisz, hL1]; omega)
              (by rw [hL1, hL2]; omega)
              (by rw [hL2, hL3]; omega)
              (by rw [hlisz]; omega)
              h5
              (by rw [hlisz, hS1, hS3]; omega)
              (by rw [hS3, hS2]; omega)
              (by rw [hlisz, hR1, hR2]; omega)
              (by rw [hR2, hR3]; omega)
              hr1
          rw [hseg1] at hO1
          obtain ⟨o11, o12, o13, o14, o15, o16, o17⟩ := hO1
          obtain ⟨c11, c12, c13, c14, c15⟩ := hC1
          obtain ⟨sc1, sc2, sc3, sc4, sc5⟩ := hScur1
          obtain ⟨sb1, sb2, sb3, sb4, sb5⟩ := hSb1
          -- second recursive call
          have hseg2 : seg b2t.data (b2t.pos - ri.size) ri.size = rs := by
            rw [hrisz, sb1, hR1]
            rw [show b.pos + rs.length - rs.length = b.pos by omega]
            rw [sb5 b.pos rs.length (by rw [hR1])]
            exact hR5
          obtain ⟨hO2, hC2, hScur2, hSa2⟩ :=
            ih out1 b2t cur2t a2t ri idx2t out2t b3t cur3t a3t idx3t
              (by rw [hseg2]; exact hVR)
              (by rw [hrisz, sb1, hR1]; omega)
              (by rw [sb1, sb2, hR1, hR2]; omega)
              (by rw [sb2, sb3, hR2, hR3]; omega)
              (by rw [o11, o12, hrisz]; omega)
              (by rw [o12, o13]; omega)
              (by rw [hrisz, sc1, sc2, hS1, hS3]; omega)
              (by rw [sc2, sc3, hS3, hS2]; omega)
              (by rw [hrisz, c11, c12, hL1, hL2]; omega)
              (by rw [c12, c13, hL2, hL3]; omega)
              hr2
          rw [hseg2] at hO2
          obtain ⟨o21, o22, o23, o24, o25, o26, o27⟩ := hO2
          obtain ⟨c21, c22, c23, c24, c25⟩ := hC2
          obtain ⟨tc1, tc2, tc3, tc4, tc5⟩ := hScur2
          obtain ⟨ta1, ta2, ta3, ta4, ta5⟩ := hSa2
          have hvalslen : vals.length = info.size := hvlen
          refine ⟨⟨?_, ?_, ?_, ?_, ?_, ?_, ?_⟩, ⟨?_, ?_, ?_, ?_, ?_⟩,
            ⟨?_, ?_, ?_, ?_, ?_⟩, ?_, ?_, ?_, ?_, ?_⟩
          -- OutWrite
          · rw [o21, o11, hvalslen]
            omega
          · rw [o22, o12]
          · rw [o23, o13]
          · rw [o24, o14]
          · rw [hvalslen, show info.size = ls.length + rs.length from hk.symm,
              seg_add]
            have hpart1 : seg out2t.data out.pos ls.length =
                seg out1.data out.pos ls.length := by
              exact o27 out.pos ls.length (by rw [o11])
            have hpart2 : (seg out2t.data (out.pos + ls.length) rs.length).Perm rs := by
              rw [← o11]
              exact o25
            refine List.Perm.trans ?_
              ((filter_append_perm_self (fun v => cmp v info.element)
                vals.reverse).trans (List.reverse_perm vals))
            rw [← hls, ← hrs]
            exact List.Perm.append (by rw [hpart1]; exact o15) hpart2
          · rw [hvalslen, show info.size = ls.length + rs.length from hk.symm,
              seg_add]
            have hpart1 : seg out2t.data out.pos ls.length =
                seg out1.data out.pos ls.length :=
              o27 out.pos ls.length (by rw [o11])
            rw [SortedBy, List.pairwise_append]
            refine ⟨by rw [hpart1]; exact o16, by rw [← o11]; exact o26, ?_⟩
            intro x hx y hy
            have hxl : x ∈ ls := (by rw [hpart1] at hx; exact o15.mem_iff.mp hx)
            have hyr : y ∈ rs := by
              rw [← o11] at hy
              exact o25.mem_iff.mp hy
            have hxk : cmp x info.element = true := by
              have := List.mem_filter.mp (by rw [hls] at hxl; exact hxl)
              simpa using this.2
            have hyk : cmp y info.element = false := by
              have := List.mem_filter.mp (by rw [hrs] at hyr; exact hyr)
              simpa using this.2
            by_contra hyx
            rw [Bool.not_eq_false] at hyx
            have := hswo.trans y x info.element hyx hxk
            rw [hyk] at this
            exact Bool.false_ne_true this
          · intro lo m hm
            rw [o27 lo m (by rw [o11]; omega), o17 lo m hm]
          -- ConsumedPres cur
          · rw [tc1, sc1, hS1]
          · rw [tc2, sc2, hS3]
          · rw [tc3, sc3]
            rw [hS2]
          · rw [tc4, sc4, hS4]
          · intro lo m hm
            rw [tc5 lo m (by rw [sc1, hS1]; omega),
              sc5 lo m (by rw [hS1]; omega), hS2]
          -- ScratchPres a
          · rw [ta1, c11, hL1, hlisz]
            omega
          · rw [ta2, c12, hL2]
          · rw [ta3, c13, hL3]
          · rw [ta4, c14, hL4]
          · intro lo m hm
            rw [ta5 lo m (by rw [c11, hL1, hlisz]; omega),
              c15 lo m (by rw [hL1, hlisz]; omega),
              hL6 lo m hm]
          -- ScratchPres b
          · rw [c21, sb1, hR1, hrisz]
            omega
          · rw [c22, sb2, hR2]
          · rw [c23, sb3, hR3]
          · rw [c24, sb4, hR4]
          · intro lo m hm
            rw [c25 lo m (by rw [sb1, hR1, hrisz]; omega),
              sb5 lo m (by rw [hR1]; omega),
              hR6 lo m hm]

/-! ### The two public `tape::sort` overloads (sorter.h lines 206–264) -/

theorem getv_eq {t : Tape} (h : TapeInv t) : t.getv = t.data.getD t.pos 0 := by
  unfold Tape.getv
  by_cases hc : t.consistent = true
  · rw [if_pos hc]
    exact h hc
  · rw [if_neg hc]

theorem get_next_spec (t : Tape) :
    t.getT.next = { t with
      pos := t.pos + 1
      consistent := false
      buffer := t.getv } := by
  have hpos : ((t.pos : Int) + 1).toNat = t.pos + 1 := by omega
  have hc : ((1 : Int) == 0) = false := rfl
  simp [Tape.getT, Tape.next, Tape.seekImpl, hpos, hc]

/-- The read loop of the in-RAM `tape::sort`:
`while (!in.is_end()) { value = in.get(); in.next(); vec.emplace_back(value); }`
(`fuel` bounds the iteration count; `tin.size` always suffices in-contract). -/
def read_loop : Nat → Tape → List Int × Tape
  | 0, t => ([], t)
  | fuel + 1, t =>
    if t.is_end then ([], t)
    else
      let v := t.getv
      let t1 := t.getT.next
      let (vs, t2) := read_loop fuel t1
      (v :: vs, t2)

/-- In-RAM `tape::sort(in, out, compare)`: read everything, `in.seek(-size)`,
`std::sort` the vector, `vec_to_tape` it to `out`.  Returns the final
`(in, out)` states. -/
def sort_ram (cmp : Cmp) (tin out : Tape) : Tape × Tape :=
  let (vec, tin1) := read_loop tin.size tin
  let tin2 := tin1.seek (-(vec.length : Int))
  (tin2, vec_to_tape (stdSort cmp vec) out)

/-- The ingestion loop of the external `tape::sort`:
`while (!in.is_end()) { value = in.get(); in.next(); put(tmp1, value);`
`info.update(value); }`. -/
def ingest (cmp : Cmp) (g : Nat → Nat) :
    Nat → Tape → Tape → subarray_info → Nat → Tape × Tape × subarray_info × Nat
  | 0, tin, t1, info, idx => (tin, t1, info, idx)
  | fuel + 1, tin, t1, info, idx =>
    if tin.is_end then (tin, t1, info, idx)
    else
      let v := tin.getv
      let tin1 := tin.getT.next
      ingest cmp g fuel tin1 (put t1 v) (info.update cmp v (g idx)) (idx + 1)

/-- External `tape::sort(in, out, tmp1, tmp2, tmp3, chunk_size, compare)`:
ingest into `tmp1` building the root summary, rewind `in` by `info.size()`,
then `sort_impl`.  Returns the final `(in, out, tmp1, tmp2, tmp3)` states,
or `none` if `sort_impl`'s fuel runs out. -/
def sort_ext (cmp : Cmp) (g : Nat → Nat) (chunk_size fuel : Nat)
    (tin out tmp1 tmp2 tmp3 : Tape) (idx : Nat) :
    Option (Tape × Tape × Tape × Tape × Tape × Nat) :=
  match ingest cmp g tin.size tin tmp1 {} idx with
  | (tin1, tmp1a, info, idx1) =>
    let tin2 := tin1.seek (-(info.size : Int))
    match sort_impl cmp g chunk_size fuel out tmp1a tmp2 tmp3 info idx1 with
    | none => none
    | some (out1, tmp1b, tmp2b, tmp3b, idx2) =>
      some (tin2, out1, tmp1b, tmp2b, tmp3b, idx2)

/-- Effect of the in-RAM read loop: collects cells `[pos, size)` left to
right, leaves the head at `size`, touches nothing else. -/
theorem read_loop_spec : ∀ (fuel : Nat) (t : Tape),
    t.size - t.pos ≤ fuel → t.pos ≤ t.size → t.size ≤ t.data.length →
    TapeInv t →
    (read_loop fuel t).1 = seg t.data t.pos (t.size - t.pos) ∧
    (read_loop fuel t).2.pos = t.size ∧
    (read_loop fuel t).2.data = t.data ∧
    (read_loop fuel t).2.size = t.size ∧
    (read_loop fuel t).2.stream_offset = t.stream_offset
  | 0, t, hf, h1, _, _ => by
    have h0 : t.size - t.pos = 0 := by omega
    refine ⟨by simp [read_loop, h0, seg_zero], by simp [read_loop]; omega,
      by simp [read_loop], by simp [read_loop], by simp [read_loop]⟩
  | fuel + 1, t, hf, h1, h2, hinv => by
    by_cases hend : t.is_end = true
    · have hpos : t.pos = t.size := by simpa [Tape.is_end] using hend
      have h0 : t.size - t.pos = 0 := by omega
      refine ⟨by simp [read_loop, hend, h0, seg_zero],
        by simp [read_loop, hend]; omega,
        by simp [read_loop, hend], by simp [read_loop, hend],
        by simp [read_loop, hend]⟩
    · have hpos : t.pos < t.size := by
        simp only [Tape.is_end, beq_iff_eq] at hend
        omega
      have hgv := getv_eq hinv
      have hg := get_next_spec t
      set t1 := t.getT.next with ht1
      have hstep : read_loop (fuel + 1) t =
          (t.getv :: (read_loop fuel t1).1, (read_loop fuel t1).2) := by
        simp only [read_loop, hend, Bool.false_eq_true, if_false]
      have hp1 : t1.pos = t.pos + 1 := by rw [hg]
      have hd1 : t1.data = t.data := by rw [hg]
      have hs1 : t1.size = t.size := by rw [hg]
      have ho1 : t1.stream_offset = t.stream_offset := by rw [hg]
      have hc1 : t1.consistent = false := by rw [hg]
      obtain ⟨ihv, ihp, ihd, ihs, iho⟩ := read_loop_spec fuel t1
        (by omega) (by omega) (by rw [hd1]; omega)
        (by intro hcon; rw [hc1] at hcon; exact absurd hcon (by simp))
      refine ⟨?_, ?_, ?_, ?_, ?_⟩
      · rw [hstep]
        simp only [ihv, hd1, hp1, hs1]
        rw [show t.size - t.pos = 1 + (t.size - (t.pos + 1)) by omega,
          seg_add, seg_one (by omega), hgv]
        simp
      · rw [hstep, ihp, hs1]
      · rw [hstep, ihd, hd1]
      · rw [hstep, ihs, hs1]
      · rw [hstep, iho, ho1]

/-- Effect of the ingestion loop: streams cells `[pos, size)` of `in` into
`tmp1` (preserving order), builds the summary over exactly those values,
leaves the head of `in` at `size`. -/
theorem ingest_spec (cmp : Cmp) (g : Nat → Nat) (hswo : IsSWO cmp) :
    ∀ (fuel : Nat) (tin t1 : Tape) (info : subarray_info) (idx : Nat)
      (acc : List Int),
    tin.size - tin.pos ≤ fuel → tin.pos ≤ tin.size →
    tin.size ≤ tin.data.length → TapeInv tin →
    t1.pos + (tin.size - tin.pos) ≤ t1.size → t1.size ≤ t1.data.length →
    ValidInfo cmp info acc →
    (ingest cmp g fuel tin t1 info idx).1.pos = tin.size ∧
    (ingest cmp g fuel tin t1 info idx).1.data = tin.data ∧
    (ingest cmp g fuel tin t1 info idx).1.size = tin.size ∧
    (ingest cmp g fuel tin t1 info idx).1.stream_offset = tin.stream_offset ∧
    (ingest cmp g fuel tin t1 info idx).2.1.pos = t1.pos + (tin.size - tin.pos) ∧
    (ingest cmp g fuel tin t1 info idx).2.1.size = t1.size ∧
    (ingest cmp g fuel tin t1 info idx).2.1.data.length = t1.data.length ∧
    (ingest cmp g fuel tin t1 info idx).2.1.stream_offset = t1.stream_offset ∧
    seg (ingest cmp g fuel tin t1 info idx).2.1.data t1.pos (tin.size - tin.pos) =
      seg tin.data tin.pos (tin.size - tin.pos) ∧
    (∀ lo m, lo + m ≤ t1.pos →
      seg (ingest cmp g fuel tin t1 info idx).2.1.data lo m = seg t1.data lo m) ∧
    ValidInfo cmp (ingest cmp g fuel tin t1 info idx).2.2.1
      (acc ++ seg tin.data tin.pos (tin.size - tin.pos))
  | 0, tin, t1, info, idx, acc => by
    intro hf h1 h2 hinv h3 h4 hvi
    have h0 : tin.size - tin.pos = 0 := by omega
    refine ⟨by simp [ingest]; omega, by simp [ingest], by simp [ingest],
      by simp [ingest], by simp [ingest, h0], by simp [ingest],
      by simp [ingest], by simp [ingest], by simp [ingest, h0, seg_zero],
      fun lo m hm => by simp [ingest],
      by simpa [ingest, h0, seg_zero] using hvi⟩
  | fuel + 1, tin, t1, info, idx, acc => by
    intro hf h1 h2 hinv h3 h4 hvi
    by_cases hend : tin.is_end = true
    · have hpos : tin.pos = tin.size := by simpa [Tape.is_end] using hend
      have h0 : tin.size - tin.pos = 0 := by omega
      refine ⟨by simp [ingest, hend]; omega, by simp [ingest, hend],
        by simp [ingest, hend], by simp [ingest, hend],
        by simp [ingest, hend, h0], by simp [ingest, hend],
        by simp [ingest, hend], by simp [ingest, hend],
        by simp [ingest, hend, h0, seg_zero],
        fun lo m hm => by simp [ingest, hend],
        by simpa [ingest, hend, h0, seg_zero] using hvi⟩
    · have hpos : tin.pos < tin.size := by
        simp only [Tape.is_end, beq_iff_eq] at hend
        omega
      have hgv := getv_eq hinv
      have hg := get_next_spec tin
      set v := tin.getv with hv
      set tin1 := tin.getT.next with htin1
      have hstep : ingest cmp g (fuel + 1) tin t1 info idx =
          ingest cmp g fuel tin1 (put t1 v) (info.update cmp v (g idx)) (idx + 1) := by
        simp only [ingest, hend, Bool.false_eq_true, if_false]
      have hp1 : tin1.pos = tin.pos + 1 := by rw [hg]
      have hd1 : tin1.data = tin.data := by rw [hg]
      have hs1 : tin1.size = tin.size := by rw [hg]
      have ho1 : tin1.stream_offset = tin.stream_offset := by rw [hg]
      have hc1 : tin1.consistent = false := by rw [hg]
      have hput := put_spec t1 v
      have hputp : (put t1 v).pos = t1.pos + 1 := by rw [hput]
      have hputd : (put t1 v).data = t1.data.set t1.pos v := by rw [hput]
      obtain ⟨i1, i2, i3, i4, i5, i6, i7, i8, i9, i10, i11⟩ :=
        ingest_spec cmp g hswo fuel tin1 (put t1 v)
          (info.update cmp v (g idx)) (idx + 1) (acc ++ [v])
          (by omega) (by omega) (by rw [hd1]; omega)
          (by intro hcon; rw [hc1] at hcon; exact absurd hcon (by simp))
          (by rw [hput]; simpa using by omega)
          (by rw [hput]; simpa using h4)
          (validInfo_update hswo hvi v (g idx))
      have hsegdec : seg tin.data tin.pos (tin.size - tin.pos) =
          v :: seg tin.data (tin.pos + 1) (tin.size - (tin.pos + 1)) := by
        rw [show tin.size - tin.pos = 1 + (tin.size - (tin.pos + 1)) by omega,
          seg_add, seg_one (by omega), hgv]
        simp
      refine ⟨?_, ?_, ?_, ?_, ?_, ?_, ?_, ?_, ?_, ?_, ?_⟩
      · rw [hstep, i1, hs1]
      · rw [hstep, i2, hd1]
      · rw [hstep, i3, hs1]
      · rw [hstep, i4, ho1]
      · rw [hstep, i5, hputp, hp1, hs1]
        omega
      · rw [hstep, i6, hput]
      · rw [hstep, i7, hput]
        simp
      · rw [hstep, i8, hput]
      · rw [hstep, hsegdec]
        rw [show tin.size - tin.pos = 1 + (tin.size - (tin.pos + 1)) by omega,
          seg_add]
        have hA : seg (ingest cmp g fuel tin1 (put t1 v)
            (info.update cmp v (g idx)) (idx + 1)).2.1.data t1.pos 1 = [v] := by
          rw [i10 t1.pos 1 (by rw [hputp]), hputd,
            seg_one (by simpa using by omega)]
          rw [getD_set_self (by omega)]
        have hB := i9
        rw [hp1, hs1, hd1] at hB
        rw [hA, ← hputp, hB]
        simp
      · intro lo m hm
        rw [hstep, i10 lo m (by rw [hputp]; omega), hputd]
        exact seg_set_out (Or.inr hm) (by omega)
      · rw [hstep, hsegdec]
        have hre : acc ++ v :: seg tin.data (tin.pos + 1) (tin.size - (tin.pos + 1)) =
            (acc ++ [v]) ++ seg tin.data (tin.pos + 1) (tin.size - (tin.pos + 1)) := by
          simp
        rw [hre]
        have hC := i11
        rw [hp1, hs1, hd1] at hC
        exact hC

/-- Full characterisation of the in-RAM `tape::sort`: the input tape ends
bit-identical with its head restored, and `out` receives
`std::sort(input cells)` at its head. -/
theorem sort_ram_spec (cmp : Cmp) (tin out : Tape)
    (hin1 : tin.pos ≤ tin.size) (hin2 : tin.size ≤ tin.data.length)
    (hin3 : TapeInv tin)
    (hout1 : out.pos + (tin.size - tin.pos) ≤ out.size)
    (hout2 : out.size ≤ out.data.length) :
    (sort_ram cmp tin out).1.pos = tin.pos ∧
    (sort_ram cmp tin out).1.data = tin.data ∧
    (sort_ram cmp tin out).1.size = tin.size ∧
    (sort_ram cmp tin out).1.stream_offset = tin.stream_offset ∧
    (sort_ram cmp tin out).2.pos = out.pos + (tin.size - tin.pos) ∧
    (sort_ram cmp tin out).2.size = out.size ∧
    (sort_ram cmp tin out).2.data.length = out.data.length ∧
    (sort_ram cmp tin out).2.stream_offset = out.stream_offset ∧
    seg (sort_ram cmp tin out).2.data out.pos (tin.size - tin.pos) =
      stdSort cmp (seg tin.data tin.pos (tin.size - tin.pos)) ∧
    (∀ lo m, lo + m ≤ out.pos →
      seg (sort_ram cmp tin out).2.data lo m = seg out.data lo m) := by
  obtain ⟨rv, rp, rd, rs, ro⟩ :=
    read_loop_spec tin.size tin (by omega) hin1 hin2 hin3
  rcases hrl : read_loop tin.size tin with ⟨vec, tin1⟩
  rw [hrl] at rv rp rd rs ro
  simp only at rv rp rd rs ro
  have hsr : sort_ram cmp tin out =
      (tin1.seek (-(vec.length : Int)), vec_to_tape (stdSort cmp vec) out) := by
    simp only [sort_ram, hrl]
  have hn : vec.length = tin.size - tin.pos := by
    rw [rv]
    exact length_seg (by omega)
  have hsn : (stdSort cmp vec).length = tin.size - tin.pos := by
    rw [(stdSort_perm cmp vec).length_eq, hn]
  obtain ⟨v1, v2, v3, v4, v5, v6⟩ :=
    vec_to_tape_spec (stdSort cmp vec) out (by omega) hout2
  have hseekp : (tin1.seek (-(vec.length : Int))).pos = tin.pos := by
    simp only [Tape.seek, Tape.seekImpl, rp, hn]
    omega
  refine ⟨by rw [hsr]; exact hseekp, ?_, ?_, ?_, ?_, ?_, ?_, ?_, ?_, ?_⟩
  · rw [hsr]
    simp only [Tape.seek, Tape.seekImpl]
    exact rd
  · rw [hsr]
    simp only [Tape.seek, Tape.seekImpl]
    exact rs
  · rw [hsr]
    simp only [Tape.seek, Tape.seekImpl]
    exact ro
  · rw [hsr]
    simp only
    rw [v1, hsn]
  · rw [hsr]
    simp only
    exact v2
  · rw [hsr]
    simp only
    exact v3
  · rw [hsr]
    simp only
    exact v4
  · have hv5a : seg (vec_to_tape (stdSort cmp vec) out).data out.pos
        (tin.size - tin.pos) = stdSort cmp vec := by
      rw [← hsn]
      exact v5
    rw [hsr]
    simp only
    rw [hv5a, rv]
  · intro lo m hm
    rw [hsr]
    simp only
    exact v6 lo m hm

/-- Full characterisation of the external `tape::sort` on the success path:
the input tape ends bit-identical with its head restored, and `out` receives
a sorted permutation of the input cells at its head. -/
theorem sort_ext_spec (cmp : Cmp) (g : Nat → Nat) (hswo : IsSWO cmp)
    (tin out tmp1 tmp2 tmp3 : Tape) (chunk_size fuel idx : Nat)
    (hin1 : tin.pos ≤ tin.size) (hin2 : tin.size ≤ tin.data.length)
    (hin3 : TapeInv tin)
    (hout1 : out.pos + (tin.size - tin.pos) ≤ out.size)
    (hout2 : out.size ≤ out.data.length)
    (h11 : tmp1.pos + (tin.size - tin.pos) ≤ tmp1.size)
    (h12 : tmp1.size ≤ tmp1.data.length)
    (h21 : tmp2.pos + (tin.size - tin.pos) ≤ tmp2.size)
    (h22 : tmp2.size ≤ tmp2.data.length)
    (h31 : tmp3.pos + (tin.size - tin.pos) ≤ tmp3.size)
    (h32 : tmp3.size ≤ tmp3.data.length) :
    ∀ tin2 out2 t1b t2b t3b idx2,
    sort_ext cmp g chunk_size fuel tin out tmp1 tmp2 tmp3 idx =
      some (tin2, out2, t1b, t2b, t3b, idx2) →
    tin2.pos = tin.pos ∧ tin2.data = tin.data ∧ tin2.size = tin.size ∧
    tin2.stream_offset = tin.stream_offset ∧
    OutWrite cmp (seg tin.data tin.pos (tin.size - tin.pos)) out out2 := by
  intro tin2 out2 t1b t2b t3b idx2 heq
  rcases hig : ingest cmp g tin.size tin tmp1 {} idx with ⟨tin1, tmp1a, info, idx1⟩
  obtain ⟨i1, i2, i3, i4, i5, i6, i7, i8, i9, i10, i11⟩ :=
    ingest_spec cmp g hswo tin.size tin tmp1 {} idx [] (by omega) hin1 hin2 hin3
      h11 h12 (validInfo_default cmp)
  rw [hig] at i1 i2 i3 i4 i5 i6 i7 i8 i9 i10 i11
  simp only at i1 i2 i3 i4 i5 i6 i7 i8 i9 i10 i11
  rw [List.nil_append] at i11
  have hn : (seg tin.data tin.pos (tin.size - tin.pos)).length =
      tin.size - tin.pos := length_seg (by omega)
  have hisz : info.size = tin.size - tin.pos := by
    rw [i11.1, hn]
  have hseg : seg tmp1a.data (tmp1a.pos - info.size) info.size =
      seg tin.data tin.pos (tin.size - tin.pos) := by
    rw [hisz, i5, show tmp1.pos + (tin.size - tin.pos) - (tin.size - tin.pos) =
      tmp1.pos by omega]
    exact i9
  simp only [sort_ext, hig] at heq
  rcases hsi : sort_impl cmp g chunk_size fuel out tmp1a tmp2 tmp3 info idx1 with
    _ | ⟨out1, t1b', t2b', t3b', idx2'⟩
  · rw [hsi] at heq
    exact Option.noConfusion heq
  rw [hsi] at heq
  replace heq : some (tin1.seek (-(info.size : Int)), out1, t1b', t2b', t3b', idx2') =
      some (tin2, out2, t1b, t2b, t3b, idx2) := heq
  simp only [Option.some.injEq, Prod.mk.injEq] at heq
  obtain ⟨e0, e1, e2, e3, e4, _⟩ := heq
  obtain ⟨hOW, hCP, hS2, hS3⟩ :=
    sort_impl_spec cmp g hswo chunk_size fuel out tmp1a tmp2 tmp3 info idx1
      out1 t1b' t2b' t3b' idx2'
      (by rw [hseg]; exact i11)
      (by rw [hisz, i5]; omega)
      (by rw [i5, i6]; omega)
      (by rw [i6, i7]; omega)
      (by rw [hisz]; omega)
      hout2
      (by rw [hisz]; omega)
      h22
      (by rw [hisz]; omega)
      h32
      hsi
  rw [hseg] at hOW
  have hseekp : (tin1.seek (-(info.size : Int))).pos = tin.pos := by
    simp only [Tape.seek, Tape.seekImpl, i1, hisz]
    omega
  refine ⟨?_, ?_, ?_, ?_, ?_⟩
  · rw [← e0]
    exact hseekp
  · rw [← e0]
    simp only [Tape.seek, Tape.seekImpl]
    exact i2
  · rw [← e0]
    simp only [Tape.seek, Tape.seekImpl]
    exact i3
  · rw [← e0]
    simp only [Tape.seek, Tape.seekImpl]
    exact i4
  · rw [← e1]
    exact hOW

/-- `ys` is a permutation of `xs` with `¬cmp(y_(i+1), y_i)` for every
adjacent pair. -/
def SortedRun (cmp : Cmp) (xs ys : List Int) : Prop :=
  ys.Perm xs ∧ List.Chain' (fun a b => cmp b a = false) ys

/-- C1: For every input sequence on a readable input tape and every
strict-weak-order comparator, both forms of `tape::sort` (the in-RAM sort
and the external sort with three bidirectional scratch tapes) write to the
output tape a permutation of the input satisfying `¬cmp(y_(i+1), y_i)` for
every adjacent pair (the external form stated on its success path, for any
recursion fuel and any random draws). -/
theorem c1_sort_correct (cmp : Cmp) (g : Nat → Nat) (hswo : IsSWO cmp)
    (tin out tmp1 tmp2 tmp3 : Tape) (chunk_size fuel idx : Nat)
    (hin1 : tin.pos ≤ tin.size) (hin2 : tin.size ≤ tin.data.length)
    (hin3 : TapeInv tin)
    (hout1 : out.pos + (tin.size - tin.pos) ≤ out.size)
    (hout2 : out.size ≤ out.data.length)
    (h11 : tmp1.pos + (tin.size - tin.pos) ≤ tmp1.size)
    (h12 : tmp1.size ≤ tmp1.data.length)
    (h21 : tmp2.pos + (tin.size - tin.pos) ≤ tmp2.size)
    (h22 : tmp2.size ≤ tmp2.data.length)
    (h31 : tmp3.pos + (tin.size - tin.pos) ≤ tmp3.size)
    (h32 : tmp3.size ≤ tmp3.data.length) :
    SortedRun cmp (seg tin.data tin.pos (tin.size - tin.pos))
      (seg (sort_ram cmp tin out).2.data out.pos (tin.size - tin.pos)) ∧
    (∀ tin2 out2 t1b t2b t3b idx2,
      sort_ext cmp g chunk_size fuel tin out tmp1 tmp2 tmp3 idx =
        some (tin2, out2, t1b, t2b, t3b, idx2) →
      SortedRun cmp (seg tin.data tin.pos (tin.size - tin.pos))
        (seg out2.data out.pos (tin.size - tin.pos))) := by
  have hn : (seg tin.data tin.pos (tin.size - tin.pos)).length =
      tin.size - tin.pos := length_seg (by omega)
  constructor
  · obtain ⟨_, _, _, _, _, _, _, _, r9, _⟩ :=
      sort_ram_spec cmp tin out hin1 hin2 hin3 hout1 hout2
    rw [r9]
    exact ⟨stdSort_perm cmp _, (stdSort_sortedBy hswo _).chain'⟩
  · intro tin2 out2 t1b t2b t3b idx2 heq
    obtain ⟨_, _, _, _, hOW⟩ :=
      sort_ext_spec cmp g hswo tin out tmp1 tmp2 tmp3 chunk_size fuel idx
        hin1 hin2 hin3 hout1 hout2 h11 h12 h21 h22 h31 h32
        tin2 out2 t1b t2b t3b idx2 heq
    obtain ⟨_, _, _, _, o5, o6, _⟩ := hOW
    rw [hn] at o5 o6
    exact ⟨o5, o6.chain'⟩

/-- C2: After either `tape::sort` returns successfully, the input tape reads
back bit-identically with its head restored to the entry position (the sort
rewinds by exactly the count it read), and the output head sits immediately
past the last written element. -/
theorem c2_frame (cmp : Cmp) (g : Nat → Nat) (hswo : IsSWO cmp)
    (tin out tmp1 tmp2 tmp3 : Tape) (chunk_size fuel idx : Nat)
    (hin1 : tin.pos ≤ tin.size) (hin2 : tin.size ≤ tin.data.length)
    (hin3 : TapeInv tin)
    (hout1 : out.pos + (tin.size - tin.pos) ≤ out.size)
    (hout2 : out.size ≤ out.data.length)
    (h11 : tmp1.pos + (tin.size - tin.pos) ≤ tmp1.size)
    (h12 : tmp1.size ≤ tmp1.data.length)
    (h21 : tmp2.pos + (tin.size - tin.pos) ≤ tmp2.size)
    (h22 : tmp2.size ≤ tmp2.data.length)
    (h31 : tmp3.pos + (tin.size - tin.pos) ≤ tmp3.size)
    (h32 : tmp3.size ≤ tmp3.data.length) :
    ((sort_ram cmp tin out).1.data = tin.data ∧
     (sort_ram cmp tin out).1.pos = tin.pos ∧
     (sort_ram cmp tin out).2.pos = out.pos + (tin.size - tin.pos)) ∧
    (∀ tin2 out2 t1b t2b t3b idx2,
      sort_ext cmp g chunk_size fuel tin out tmp1 tmp2 tmp3 idx =
        some (tin2, out2, t1b, t2b, t3b, idx2) →
      tin2.data = tin.data ∧ tin2.pos = tin.pos ∧
      out2.pos = out.pos + (tin.size - tin.pos)) := by
  have hn : (seg tin.data tin.pos (tin.size - tin.pos)).length =
      tin.size - tin.pos := length_seg (by omega)
  constructor
  · obtain ⟨r1, r2, _, _, r5, _⟩ :=
      sort_ram_spec cmp tin out hin1 hin2 hin3 hout1 hout2
    exact ⟨r2, r1, r5⟩
  · intro tin2 out2 t1b t2b t3b idx2 heq
    obtain ⟨e1, e2, _, _, hOW⟩ :=
      sort_ext_spec cmp g hswo tin out tmp1 tmp2 tmp3 chunk_size fuel idx
        hin1 hin2 hin3 hout1 hout2 h11 h12 h21 h22 h31 h32
        tin2 out2 t1b t2b t3b idx2 heq
    refine ⟨e2, e1, ?_⟩
    rw [hOW.1, hn]

/-! ### Comparator-call counting (for the equal-range fast-path claim)

The probe comparator of the spec counts invocations; these functions mirror
the control flow of `ingest`/`split`/`std::sort`/`sort_impl` and return the
number of comparator calls each makes (`subarray_info.updateCalls` already
accounts for the short-circuit evaluation inside `update`). -/

def ingestCalls (cmp : Cmp) (g : Nat → Nat) :
    Nat → Tape → subarray_info → Nat → Nat
  | 0, _, _, _ => 0
  | fuel + 1, tin, info, idx =>
    if tin.is_end then 0
    else
      let v := tin.getv
      let tin1 := tin.getT.next
      info.updateCalls cmp v +
        ingestCalls cmp g fuel tin1 (info.update cmp v (g idx)) (idx + 1)

def splitCalls (cmp : Cmp) (g : Nat → Nat) :
    Nat → Tape → subarray_info → subarray_info → Int → Nat → Nat
  | 0, _, _, _, _, _ => 0
  | n + 1, source, li, ri, key, idx =>
    let (value, source1) := peek source
    if cmp value key then
      1 + li.updateCalls cmp value +
        splitCalls cmp g n source1 (li.update cmp value (g idx)) ri key (idx + 1)
    else
      1 + ri.updateCalls cmp value +
        splitCalls cmp g n source1 li (ri.update cmp value (g idx)) key (idx + 1)

def insertCalls (cmp : Cmp) (v : Int) : List Int → Nat
  | [] => 0
  | w :: ws => if cmp v w then 1 else 1 + insertCalls cmp v ws

def stdSortCalls (cmp : Cmp) : List Int → Nat
  | [] => 0
  | v :: l => stdSortCalls cmp l + insertCalls cmp v (stdSort cmp l)

def sortImplCalls (cmp : Cmp) (g : Nat → Nat) (chunk_size : Nat) :
    Nat → Tape → Tape → Tape → Tape → subarray_info → Nat → Option Nat
  | 0, _, _, _, _, _, _ => none
  | fuel + 1, out, current, tmp1, tmp2, info, idx =>
    if info.size = 0 then some 0
    else if info.equal then some 0
    else if info.size ≤ chunk_size then
      some (stdSortCalls cmp (tape_to_vec current info.size).1)
    else
      match split cmp g info.size current tmp1 tmp2 {} {} info.element idx with
      | (current1, tmp1a, tmp2a, left_info, right_info, idx1) =>
        match sort_impl cmp g chunk_size fuel out tmp1a current1 tmp2a left_info idx1,
            sortImplCalls cmp g chunk_size fuel out tmp1a current1 tmp2a left_info idx1 with
        | some (out1, tmp1b, current2, tmp2b, idx2), some c1 =>
          (sortImplCalls cmp g chunk_size fuel out1 tmp2b current2 tmp1b right_info idx2).map
            (fun c2 => splitCalls cmp g info.size current {} {} info.element idx + c1 + c2)
        | _, _ => none

/-- When every streamed value is incomparable to every other (and to the
summary contents), each `update` costs two comparator calls except the very
first one on a fresh summary, which costs zero. -/
theorem ingestCalls_allEquiv (cmp : Cmp) (g : Nat → Nat) (hswo : IsSWO cmp) :
    ∀ (fuel : Nat) (tin : Tape) (info : subarray_info) (idx : Nat)
      (acc : List Int),
    tin.size - tin.pos ≤ fuel → tin.pos ≤ tin.size →
    tin.size ≤ tin.data.length → TapeInv tin →
    ValidInfo cmp info acc →
    AllEquiv cmp (acc ++ seg tin.data tin.pos (tin.size - tin.pos)) →
    ingestCalls cmp g fuel tin info idx =
      2 * (tin.size - tin.pos) - (if info.size = 0 then 2 else 0)
  | 0, tin, info, idx, acc => by
    intro hf h1 h2 hinv hvi hall
    have h0 : tin.size - tin.pos = 0 := by omega
    rw [h0]
    simp [ingestCalls]
  | fuel + 1, tin, info, idx, acc => by
    intro hf h1 h2 hinv hvi hall
    by_cases hend : tin.is_end = true
    · have hpos : tin.pos = tin.size := by simpa [Tape.is_end] using hend
      have h0 : tin.size - tin.pos = 0 := by omega
      rw [h0]
      simp [ingestCalls, hend]
    · have hpos : tin.pos < tin.size := by
        simp only [Tape.is_end, beq_iff_eq] at hend
        omega
      have hgv := getv_eq hinv
      have hg := get_next_spec tin
      set v := tin.getv with hv
      set tin1 := tin.getT.next with htin1
      have hstep : ingestCalls cmp g (fuel + 1) tin info idx =
          info.updateCalls cmp v +
            ingestCalls cmp g fuel tin1 (info.update cmp v (g idx)) (idx + 1) := by
        simp only [ingestCalls, hend, Bool.false_eq_true, if_false]
      have hp1 : tin1.pos = tin.pos + 1 := by rw [hg]
      have hd1 : tin1.data = tin.data := by rw [hg]
      have hs1 : tin1.size = tin.size := by rw [hg]
      have hc1 : tin1.consistent = false := by rw [hg]
      have hsegdec : seg tin.data tin.pos (tin.size - tin.pos) =
          v :: seg tin.data (tin.pos + 1) (tin.size - (tin.pos + 1)) := by
        rw [show tin.size - tin.pos = 1 + (tin.size - (tin.pos + 1)) by omega,
          seg_add, seg_one (by omega), hgv]
        simp
      have hallr : AllEquiv cmp ((acc ++ [v]) ++
          seg tin.data (tin.pos + 1) (tin.size - (tin.pos + 1))) := by
        intro x hx y hy
        refine hall x ?_ y ?_
        · rw [hsegdec]
          simp only [List.append_assoc, List.singleton_append] at hx ⊢
          exact hx
        · rw [hsegdec]
          simp only [List.append_assoc, List.singleton_append] at hy ⊢
          exact hy
      have hvmem : v ∈ acc ++ seg tin.data tin.pos (tin.size - tin.pos) := by
        rw [hsegdec]
        exact List.mem_append_right _ (List.mem_cons_self v _)
      have hrec := ingestCalls_allEquiv cmp g hswo fuel tin1
        (info.update cmp v (g idx)) (idx + 1) (acc ++ [v])
        (by omega) (by omega) (by rw [hd1]; omega)
        (by intro hcon; rw [hc1] at hcon; exact absurd hcon (by simp))
        (validInfo_update hswo hvi v (g idx))
        (by rw [hp1, hs1, hd1]; exact hallr)
      have hrec2 : ingestCalls cmp g fuel tin1 (info.update cmp v (g idx)) (idx + 1) =
          2 * (tin.size - (tin.pos + 1)) := by
        rw [hrec, hp1, hs1]
        have : (info.update cmp v (g idx)).size = info.size + 1 := rfl
        rw [this]
        simp
      have heqt : info.equal = true := by
        refine hvi.2.2.mpr ?_
        intro x hx y hy
        exact hall x (List.mem_append_left _ hx) y (List.mem_append_left _ hy)
      by_cases hisz : info.size = 0
      · have hcost : info.updateCalls cmp v = 0 := by
          simp [subarray_info.updateCalls, heqt, hisz]
        rw [hstep, hcost, hrec2, if_pos hisz]
        omega
      · have haccne : acc ≠ [] := by
          intro hcon
          rw [hcon] at hvi
          exact hisz (by simpa using hvi.1)
        have helem : info.element ∈ acc := hvi.2.1 haccne
        have hcmp : cmp info.element v = false :=
          hall info.element (List.mem_append_left _ helem) v hvmem
        have hcost : info.updateCalls cmp v = 2 := by
          simp [subarray_info.updateCalls, heqt, hisz, hcmp]
        rw [hstep, hcost, hrec2, if_neg hisz]
        omega

/-- C3 (amended): for a non-empty all-equal input of `n` cells, the root
summary observes `2·(n−1)` comparator calls during ingestion (two per
`update` after the first, by the short-circuit in
`!cmp(element_, value) && !cmp(value, element_)`), and `sort_impl` takes the
equal fast-path: with recursion fuel 1 (hence no recursion and no
partitioning) it transfers the `n` cells from the scratch tape to `out` via
`peek`+`put`, and makes 0 comparator calls. -/
theorem c3_equal_fastpath (cmp : Cmp) (g : Nat → Nat) (hswo : IsSWO cmp)
    (tin out tmp1 tmp2 tmp3 : Tape) (chunk_size idx : Nat)
    (hin1 : tin.pos ≤ tin.size) (hin2 : tin.size ≤ tin.data.length)
    (hin3 : TapeInv tin)
    (hout1 : out.pos + (tin.size - tin.pos) ≤ out.size)
    (hout2 : out.size ≤ out.data.length)
    (h11 : tmp1.pos + (tin.size - tin.pos) ≤ tmp1.size)
    (h12 : tmp1.size ≤ tmp1.data.length)
    (hne : 1 ≤ tin.size - tin.pos)
    (hall : AllEquiv cmp (seg tin.data tin.pos (tin.size - tin.pos))) :
    ingestCalls cmp g tin.size tin {} idx = 2 * ((tin.size - tin.pos) - 1) ∧
    (∀ tin1 tmp1a info idx1,
      ingest cmp g tin.size tin tmp1 {} idx = (tin1, tmp1a, info, idx1) →
      info.equal = true ∧
      sortImplCalls cmp g chunk_size 1 out tmp1a tmp2 tmp3 info idx1 = some 0 ∧
      ∃ out1 cur1,
        sort_impl cmp g chunk_size 1 out tmp1a tmp2 tmp3 info idx1 =
          some (out1, cur1, tmp2, tmp3, idx1) ∧
        out1.pos = out.pos + (tin.size - tin.pos) ∧
        seg out1.data out.pos (tin.size - tin.pos) =
          (seg tin.data tin.pos (tin.size - tin.pos)).reverse) := by
  constructor
  · rw [ingestCalls_allEquiv cmp g hswo tin.size tin {} idx [] (by omega)
      hin1 hin2 hin3 (validInfo_default cmp) (by simpa using hall)]
    have : ({} : subarray_info).size = 0 := rfl
    rw [this]
    simp
    omega
  · intro tin1 tmp1a info idx1 hig
    obtain ⟨i1, i2, i3, i4, i5, i6, i7, i8, i9, i10, i11⟩ :=
      ingest_spec cmp g hswo tin.size tin tmp1 {} idx [] (by omega) hin1 hin2
        hin3 h11 h12 (validInfo_default cmp)
    rw [hig] at i1 i2 i3 i4 i5 i6 i7 i8 i9 i10 i11
    simp only at i1 i2 i3 i4 i5 i6 i7 i8 i9 i10 i11
    rw [List.nil_append] at i11
    have hn : (seg tin.data tin.pos (tin.size - tin.pos)).length =
        tin.size - tin.pos := length_seg (by omega)
    have hisz : info.size = tin.size - tin.pos := by
      rw [i11.1, hn]
    have heqt : info.equal = true := i11.2.2.mpr hall
    have hszne : ¬info.size = 0 := by omega
    refine ⟨heqt, ?_, ?_⟩
    · simp only [sortImplCalls, hszne, if_false, heqt, if_true]
    · rcases hdr : drain info.size tmp1a out with ⟨cur1, out1⟩
      obtain ⟨d1, d2, d3, d4, d5, d6, d7, d8, d9, d10⟩ :=
        drain_spec info.size tmp1a out
          (by rw [hisz, i5]; omega)
          (by rw [i5, i7]; omega)
          (by rw [hisz]; omega)
          hout2
      rw [hdr] at d1 d2 d3 d4 d5 d6 d7 d8 d9 d10
      simp only at d1 d2 d3 d4 d5 d6 d7 d8 d9 d10
      refine ⟨out1, cur1, ?_, ?_, ?_⟩
      · simp only [sort_impl, hszne, if_false, heqt, if_true, hdr]
      · rw [d5, hisz]
      · have hseg : seg tmp1a.data (tmp1a.pos - info.size) info.size =
            seg tin.data tin.pos (tin.size - tin.pos) := by
          rw [hisz, i5, show tmp1.pos + (tin.size - tin.pos) - (tin.size - tin.pos) =
            tmp1.pos by omega]
          exact i9
        rw [hisz] at d9 hseg
        rw [d9, hseg]

/-! ### Claim theorems for `split` and `subarray_info` -/

/-- A sequence of `subarray_info::update` calls (with the generator draws
threaded through). -/
def info_updates (cmp : Cmp) (g : Nat → Nat) :
    List Int → subarray_info → Nat → subarray_info × Nat
  | [], i, idx => (i, idx)
  | v :: vs, i, idx => info_updates cmp g vs (i.update cmp v (g idx)) (idx + 1)

theorem validInfo_info_updates (cmp : Cmp) (g : Nat → Nat) (hswo : IsSWO cmp) :
    ∀ (vs : List Int) (i : subarray_info) (idx : Nat) (acc : List Int),
    ValidInfo cmp i acc →
    ValidInfo cmp (info_updates cmp g vs i idx).1 (acc ++ vs)
  | [], i, idx, acc => fun h => by simpa [info_updates] using h
  | v :: vs, i, idx, acc => fun h => by
    have := validInfo_info_updates cmp g hswo vs (i.update cmp v (g idx))
      (idx + 1) (acc ++ [v]) (validInfo_update hswo h v (g idx))
    simpa [info_updates] using this

/-- C7: for a strict-weak-order comparator, after feeding `v₁..vₙ` through
`subarray_info::update` (any generator draws), the `equal` flag is true iff
every pair of the values is incomparable under `cmp`; a fresh summary has
`equal = true` and `size = 0`. -/
theorem c7_equal_flag (cmp : Cmp) (g : Nat → Nat) (hswo : IsSWO cmp)
    (vs : List Int) (idx : Nat) :
    ((info_updates cmp g vs {} idx).1.equal = true ↔ AllEquiv cmp vs) ∧
    ({} : subarray_info).equal = true ∧ ({} : subarray_info).size = 0 := by
  have h := validInfo_info_updates cmp g hswo vs {} idx [] (validInfo_default cmp)
  rw [List.nil_append] at h
  exact ⟨h.2.2, rfl, rfl⟩

/-- C6: after `split(source, left, right, cmp, key, n)` the source head has
dropped by exactly `n`, `left`'s head advanced by the number of peeked
values `v` with `cmp v key`, `right`'s head by the remainder, and the two
returned summaries' sizes sum to `n`. -/
theorem c6_split_post (cmp : Cmp) (g : Nat → Nat) (hswo : IsSWO cmp)
    (key : Int) (n : Nat) (src left right : Tape) (idx : Nat)
    (src2 left2 right2 : Tape) (li2 ri2 : subarray_info) (idx2 : Nat)
    (hs : n ≤ src.pos) (hsl : src.pos ≤ src.data.length)
    (hl : left.pos + n ≤ left.size) (hll : left.size ≤ left.data.length)
    (hr : right.pos + n ≤ right.size) (hrl : right.size ≤ right.data.length)
    (heq : split cmp g n src left right {} {} key idx =
      (src2, left2, right2, li2, ri2, idx2)) :
    src2.pos + n = src.pos ∧
    left2.pos = left.pos +
      ((seg src.data (src.pos - n) n).reverse.filter (fun v => cmp v key)).length ∧
    right2.pos = right.pos +
      (n - ((seg src.data (src.pos - n) n).reverse.filter (fun v => cmp v key)).length) ∧
    li2.size + ri2.size = n := by
  obtain ⟨⟨hS1, _, _, _⟩, ⟨hL1, _, _, _, _, _⟩, ⟨hR1, _, _, _, _, _⟩, hVL, hVR⟩ :=
    split_spec cmp g hswo key n src left right {} {} idx [] []
      src2 left2 right2 li2 ri2 idx2 hs hsl hl hll hr hrl
      (validInfo_default cmp) (validInfo_default cmp) heq
  rw [List.nil_append] at hVL hVR
  have hk : ((seg src.data (src.pos - n) n).reverse.filter
        (fun v => cmp v key)).length +
      ((seg src.data (src.pos - n) n).reverse.filter
        (fun v => !cmp v key)).length = n := by
    have hp := (filter_append_perm_self (fun v => cmp v key)
      (seg src.data (src.pos - n) n).reverse).length_eq
    simp only [List.length_append, List.length_reverse] at hp
    rw [length_seg (by omega)] at hp
    exact hp
  refine ⟨by omega, hL1, ?_, ?_⟩
  · rw [hR1]
    omega
  · rw [hVL.1, hVR.1]
    simp only [List.length_reverse] at hk ⊢
    omega

/-! ### Saturating delay arithmetic (tape.h lines 350–375) -/

/-- Number of values of the host `size_t` (64-bit). -/
def wsize : Nat := 2 ^ 64

/-- `std::numeric_limits<size_t>::max()`. -/
def MAX_SIZE_T : Nat := wsize - 1

/-- `tape::delay(constant_delay, step_delay, steps)`:
`result_delay = step_delay * steps` in `size_t` (wrapping), overflow detected
by `result_delay / steps != step_delay`, then a saturating add of
`constant_delay`. -/
def satDelay (constant_delay step_delay steps : Nat) : Nat :=
  let result0 := (step_delay * steps) % wsize
  let result1 :=
    if steps ≠ 0 ∧ result0 / steps ≠ step_delay then MAX_SIZE_T else result0
  if result1 ≤ MAX_SIZE_T - constant_delay then result1 + constant_delay
  else MAX_SIZE_T

/-- The delay `tape::seek(diff)` charges:
`delay(delays.rewind_delay, delays.rewind_step_delay, std::llabs(diff))`. -/
def seekDelay (rewind_delay rewind_step_delay : Nat) (diff : Int) : Nat :=
  satDelay rewind_delay rewind_step_delay diff.natAbs

theorem satDelay_eq_min (c s t : Nat) (hc : c < wsize) :
    satDelay c s t = min MAX_SIZE_T (c + s * t) := by
  have hW : 0 < wsize := by norm_num [wsize]
  have hM : MAX_SIZE_T = wsize - 1 := rfl
  by_cases ht : t = 0
  · subst ht
    simp only [satDelay, Nat.mul_zero, Nat.zero_mod, ne_eq, not_true_eq_false,
      false_and, if_false]
    rw [if_pos (by omega)]
    rw [Nat.min_eq_right (by omega)]
    omega
  · by_cases hst : s * t < wsize
    · have hr0 : s * t % wsize = s * t := Nat.mod_eq_of_lt hst
      have hdiv : s * t / t = s := Nat.mul_div_cancel s (by omega)
      simp only [satDelay, hr0, hdiv, ne_eq, not_true_eq_false, and_false,
        if_false]
      by_cases hle : s * t ≤ MAX_SIZE_T - c
      · rw [if_pos hle, Nat.min_eq_right (by omega)]
        omega
      · rw [if_neg hle, Nat.min_eq_left (by omega)]
    · have hge : wsize ≤ s * t := by omega
      have hr0lt : s * t % wsize < s * t :=
        lt_of_lt_of_le (Nat.mod_lt _ hW) hge
      have hdiv : s * t % wsize / t < s := by
        rw [Nat.div_lt_iff_lt_mul (by omega)]
        calc s * t % wsize < s * t := hr0lt
          _ = s * t := rfl
      have hcond : t ≠ 0 ∧ s * t % wsize / t ≠ s := ⟨ht, by omega⟩
      simp only [satDelay]
      rw [if_pos hcond]
      have hmin : min MAX_SIZE_T (c + s * t) = MAX_SIZE_T := by
        rw [Nat.min_eq_left (by omega)]
      rw [hmin]
      by_cases hle : MAX_SIZE_T ≤ MAX_SIZE_T - c
      · rw [if_pos hle]
        omega
      · rw [if_neg hle]

/-- C9: the delay emulated for `seek(Δ)` is
`min(SIZE_MAX, rewind_delay + rewind_step_delay · |Δ|)` in exact arithmetic:
it saturates to the maximal `size_t` whenever the product or the sum
overflows. -/
theorem c9_seek_delay_saturating (rewind_delay rewind_step_delay : Nat)
    (diff : Int) (h1 : rewind_delay < wsize) (_h2 : rewind_step_delay < wsize)
    (_h3 : diff.natAbs < wsize) :
    seekDelay rewind_delay rewind_step_delay diff =
      min MAX_SIZE_T (rewind_delay + rewind_step_delay * diff.natAbs) :=
  satDelay_eq_min rewind_delay rewind_step_delay diff.natAbs h1

/-! ### Tape construction over a byte stream (tape.h lines 122–136, 381–396) -/

/-- A seekable byte stream for the construction model: its byte contents and
whether operations on it succeed. -/
structure ByteStream where
  content : List Nat
  good : Bool
  deriving Repr, DecidableEq

/-- The `extend` loop: `seekp(0, end)`, then
`while (stream && tellp() < size * VALUE_SIZE + stream_offset) write(4 zero`
`bytes)`.  The bound `target` the loop compares `tellp()` against is the
`size_t` value of `size * VALUE_SIZE + stream_offset`, i.e. the product and
sum taken modulo `2^64` (the caller passes it already wrapped). -/
def extendLoop (c : List Nat) (target : Nat) : List Nat :=
  if h : c.length < target then extendLoop (c ++ [0, 0, 0, 0]) target else c
termination_by target - c.length
decreasing_by
  simp only [List.length_append, List.length_cons, List.length_nil]
  omega

inductive TapeErr where
  | contract_violation
  | io_error
  deriving Repr, DecidableEq

/-- Result of a successful tape construction: the (possibly extended)
backing stream and the tape fields. -/
structure CtorResult where
  stream : ByteStream
  pos : Nat
  size : Nat
  stream_offset : Nat
  deriving Repr, DecidableEq

/-- The `tape` constructor: `throw std::invalid_argument` when `pos > size`,
then `extend()` — which, for a writable stream, pads with zero-valued cells
while the stream is good and throws `io_exception` when it is not; a
read-only stream is never touched.  The extension target
`size * VALUE_SIZE + stream_offset` is computed in `size_t`, so it wraps
modulo `2^64` (for `size ≥ 2^62` the wrapped target can be small and the
loop pads little or nothing). -/
def tapeCtor (writable : Bool) (s : ByteStream) (size pos stream_offset : Nat) :
    Except TapeErr CtorResult :=
  if pos > size then .error .contract_violation
  else if writable then
    if s.good then
      .ok ⟨{ s with
          content := extendLoop s.content ((size * 4 + stream_offset) % wsize) },
        pos, size, stream_offset⟩
    else .error .io_error
  else .ok ⟨s, pos, size, stream_offset⟩

theorem extendLoop_spec (c : List Nat) (target : Nat) :
    ∃ k, extendLoop c target = c ++ List.replicate (4 * k) 0 ∧
      target ≤ (extendLoop c target).length := by
  by_cases h : c.length < target
  · rw [extendLoop, dif_pos h]
    obtain ⟨k, hk1, hk2⟩ := extendLoop_spec (c ++ [0, 0, 0, 0]) target
    refine ⟨k + 1, ?_, hk2⟩
    rw [hk1]
    have h4 : ([0, 0, 0, 0] : List Nat) = List.replicate 4 0 := rfl
    rw [h4, List.append_assoc, ← List.replicate_add,
      show 4 + 4 * k = 4 * (k + 1) by omega]
  · rw [extendLoop, dif_neg h]
    exact ⟨0, by simp, by omega⟩
termination_by target - c.length
decreasing_by
  simp only [List.length_append, List.length_cons, List.length_nil]
  omega

/-- C8 (amended): constructing a tape with `pos > size` fails with the
contract violation; construction over a writable stream pads it with
zero-valued cells until it holds at least `(size·4 + stream_offset) mod 2^64`
bytes — the target is computed in wrapping `size_t` arithmetic, so on
overflow only the wrapped target is honoured — raising io-error when the
stream cannot be written; construction over a read-only stream never
modifies it. -/
theorem c8_construction (w : Bool) (s : ByteStream) (size pos off : Nat) :
    (pos > size → tapeCtor w s size pos off = .error .contract_violation) ∧
    (pos ≤ size → w = true → s.good = true →
      ∃ k, tapeCtor w s size pos off =
          .ok ⟨{ s with content := s.content ++ List.replicate (4 * k) 0 },
            pos, size, off⟩ ∧
        (size * 4 + off) % wsize ≤ (s.content ++ List.replicate (4 * k) 0).length) ∧
    (pos ≤ size → w = true → s.good = false →
      tapeCtor w s size pos off = .error .io_error) ∧
    (pos ≤ size → w = false → tapeCtor w s size pos off = .ok ⟨s, pos, size, off⟩) := by
  refine ⟨?_, ?_, ?_, ?_⟩
  · intro h
    rw [tapeCtor, if_pos h]
  · intro h hw hg
    obtain ⟨k, hk1, hk2⟩ := extendLoop_spec s.content ((size * 4 + off) % wsize)
    refine ⟨k, ?_, ?_⟩
    · rw [tapeCtor, if_neg (by omega), hw, if_pos rfl, hg, if_pos rfl, hk1]
    · rw [← hk1]
      omega
  · intro h hw hg
    rw [tapeCtor, if_neg (by omega), hw, if_pos rfl, hg]
    simp
  · intro h hw
    rw [tapeCtor, if_neg (by omega), hw]
    simp

/-- C8, the claim as frozen, is false at `size = 2^62`: the extension target
`size * 4 + stream_offset` wraps to 0 in `size_t`, so construction over an
empty writable stream succeeds without writing any padding, even though
`stream_offset + size·4 = 2^64` bytes were claimed to be guaranteed. -/
theorem c8_claim_counterexample :
    tapeCtor true { content := [], good := true } (2 ^ 62) 0 0 =
      .ok ⟨{ content := [], good := true }, 0, 2 ^ 62, 0⟩ ∧
    ¬((0 : Nat) + 2 ^ 62 * 4 ≤ ([] : List Nat).length) := by
  constructor
  · have htgt : (2 ^ 62 * 4 + 0) % wsize = 0 := by decide
    have hext : extendLoop ([] : List Nat) 0 = [] := by
      rw [extendLoop, dif_neg (by simp)]
    rw [tapeCtor, if_neg (by omega), if_pos rfl, if_pos rfl, htgt, hext]
  · simp

/-! ### `tape::release` (tape.h lines 265–279) -/

/-- The backing stream with its read (`seekg`) and write (`seekp`) cursors. -/
structure StreamCursors where
  gpos : Nat
  ppos : Nat
  cells : List Int
  deriving Repr, DecidableEq

/-- A tape together with explicit stream cursors, for the `release` model. -/
structure FullTape where
  pos : Nat := 0
  size : Nat := 0
  stream_offset : Nat := 0
  stream : StreamCursors := ⟨0, 0, []⟩
  consistent : Bool := false
  buffer : Int := 0
  deriving Repr, DecidableEq

/-- `tape::release`: move the stream out, assign
`pos = size = stream_offset = 0; consistent = false; delays = {}`, and only
then `result.seekp(stream_offset); result.seekg(stream_offset)` — both seeks
read the member `stream_offset`, which was just zeroed. -/
def FullTape.release (readable writable : Bool) (t : FullTape) :
    StreamCursors × FullTape :=
  let result := t.stream
  let t1 : FullTape := { t with
    pos := 0
    size := 0
    stream_offset := 0
    consistent := false }
  let result1 := if writable then { result with ppos := t1.stream_offset }
    else result
  let result2 := if readable then { result1 with gpos := t1.stream_offset }
    else result1
  (result2, t1)

/-- C4 (divergence evidence): releasing a bidirectional tape whose
`stream_offset` is 4 positions both stream cursors at byte 0, not at the
stream offset, because the member is zeroed before the seeks read it; the
stream cells themselves are returned unchanged. -/
theorem c4_release_cursor_bug :
    (FullTape.release true true
      { pos := 1, size := 2, stream_offset := 4,
        stream := { gpos := 12, ppos := 16, cells := [5, 6] },
        consistent := false, buffer := 0 }).1.gpos = 0 ∧
    (FullTape.release true true
      { pos := 1, size := 2, stream_offset := 4,
        stream := { gpos := 12, ppos := 16, cells := [5, 6] },
        consistent := false, buffer := 0 }).1.ppos = 0 ∧
    (FullTape.release true true
      { pos := 1, size := 2, stream_offset := 4,
        stream := { gpos := 12, ppos := 16, cells := [5, 6] },
        consistent := false, buffer := 0 }).1.cells = [5, 6] ∧
    ¬((FullTape.release true true
      { pos := 1, size := 2, stream_offset := 4,
        stream := { gpos := 12, ppos := 16, cells := [5, 6] },
        consistent := false, buffer := 0 }).1.gpos = 4) := by
  decide

/-! ### `file_guard` (file-guard.cpp) -/

structure file_guard where
  path : String
  deriving Repr, DecidableEq

/-- Move construction: `path_(std::exchange(other.path_, ""))` — returns
(the constructed guard, the moved-from guard). -/
def file_guard.moveCtor (other : file_guard) : file_guard × file_guard :=
  ({ path := other.path }, { path := "" })

/-- Move assignment (between distinct objects; the `this == &other` self
check is identity-based and cannot fire for distinct guards):
`std::exchange(path_, other.path_)` assigns `other.path_` to `path_` and
returns the old `path_` — it does not modify `other`.  Returns
(the assigned-to guard, the moved-from guard). -/
def file_guard.moveAssign (_self other : file_guard) : file_guard × file_guard :=
  ({ path := other.path }, other)

/-- The destructor deletes the guarded file iff the stored path is
non-empty. -/
def file_guard.deletesOnDestroy (f : file_guard) : Bool := !(f.path == "")

/-- C5 (divergence evidence): move construction does empty the source path,
but move assignment leaves the moved-from guard holding the original path,
so both guards' destructors delete the same file (a double delete), contrary
to the claim that the moved-from path is always empty. -/
theorem c5_move_assign_bug :
    (file_guard.moveCtor { path := "tmp/a" }).2.path = "" ∧
    (file_guard.moveAssign { path := "" } { path := "tmp/a" }).2.path = "tmp/a" ∧
    (file_guard.moveAssign { path := "" } { path := "tmp/a" }).2.deletesOnDestroy
      = true ∧
    (file_guard.moveAssign { path := "" } { path := "tmp/a" }).1.deletesOnDestroy
      = true := by
  decide

/-- C10: if `tape::set` fails because the underlying stream write throws,
the tape exits with `consistent = false` (so the cached-buffer invariant
holds vacuously) and `pos`, `size`, `stream_offset` unchanged; on success
`consistent = true` and the buffer holds the written value (and the
invariant holds). -/
theorem c10_set_error_state (t : Tape) (writeOk : Bool) (v : Int)
    (h1 : t.pos < t.size) (h2 : t.size ≤ t.data.length) :
    ((t.setE writeOk v).2 = false →
      (t.setE writeOk v).1.consistent = false ∧
      (t.setE writeOk v).1.pos = t.pos ∧
      (t.setE writeOk v).1.size = t.size ∧
      (t.setE writeOk v).1.stream_offset = t.stream_offset ∧
      TapeInv (t.setE writeOk v).1) ∧
    ((t.setE writeOk v).2 = true →
      (t.setE writeOk v).1.consistent = true ∧
      (t.setE writeOk v).1.buffer = v ∧
      (t.setE writeOk v).1.pos = t.pos ∧
      (t.setE writeOk v).1.size = t.size ∧
      (t.setE writeOk v).1.stream_offset = t.stream_offset ∧
      TapeInv (t.setE writeOk v).1) := by
  by_cases hok : writeOk = true
  · subst hok
    constructor
    · intro hcon
      simp [Tape.setE] at hcon
    · intro _
      refine ⟨rfl, rfl, rfl, rfl, rfl, ?_⟩
      intro _
      simp only [Tape.setE]
      exact (getD_set_self (by omega)).symm
  · have hok2 : writeOk = false := by simpa using hok
    subst hok2
    constructor
    · intro _
      refine ⟨rfl, rfl, rfl, rfl, ?_⟩
      intro hcon
      simp only [Tape.setE] at hcon
      exact absurd hcon (by simp)
    · intro hcon
      simp [Tape.setE] at hcon

/-! ### Concrete instances for the witnesses -/

/-- The default comparator `std::less<int32_t>`. -/
def wCmp : Cmp := fun a b => decide (a < b)

theorem wCmp_swo : IsSWO wCmp := by
  refine ⟨?_, ?_, ?_⟩
  · intro a
    simp [wCmp]
  · intro a b c hab hbc
    simp only [wCmp, decide_eq_true_eq] at hab hbc ⊢
    omega
  · intro a b c hab hba hbc hcb
    simp only [wCmp, decide_eq_false_iff_not] at hab hba hbc hcb ⊢
    omega

def wTin : Tape :=
  { pos := 0, size := 3, stream_offset := 0, data := [3, 1, 2],
    consistent := false, buffer := 0 }

def wOut : Tape :=
  { pos := 0, size := 3, stream_offset := 0, data := [0, 0, 0],
    consistent := false, buffer := 0 }

def wT1 : Tape :=
  { pos := 0, size := 3, stream_offset := 0, data := [0, 0, 0],
    consistent := false, buffer := 0 }

def wT2 : Tape :=
  { pos := 0, size := 3, stream_offset := 0, data := [0, 0, 0],
    consistent := false, buffer := 0 }

def wT3 : Tape :=
  { pos := 0, size := 3, stream_offset := 0, data := [0, 0, 0],
    consistent := false, buffer := 0 }

def wTinEq : Tape :=
  { pos := 0, size := 2, stream_offset := 0, data := [7, 7],
    consistent := false, buffer := 0 }

def wOut2 : Tape :=
  { pos := 0, size := 2, stream_offset := 0, data := [0, 0],
    consistent := false, buffer := 0 }

def wT1b : Tape :=
  { pos := 0, size := 2, stream_offset := 0, data := [0, 0],
    consistent := false, buffer := 0 }

def wT2b : Tape :=
  { pos := 0, size := 2, stream_offset := 0, data := [0, 0],
    consistent := false, buffer := 0 }

def wT3b : Tape :=
  { pos := 0, size := 2, stream_offset := 0, data := [0, 0],
    consistent := false, buffer := 0 }

def wSrc : Tape :=
  { pos := 3, size := 3, stream_offset := 0, data := [5, 1, 4],
    consistent := false, buffer := 0 }

theorem c1_sort_correct_witness :
    SortedRun wCmp (seg wTin.data wTin.pos (wTin.size - wTin.pos))
      (seg (sort_ram wCmp wTin wOut).2.data wOut.pos (wTin.size - wTin.pos)) ∧
    (∀ tin2 out2 t1b t2b t3b idx2,
      sort_ext wCmp (fun _ => 0) 0 10 wTin wOut wT1 wT2 wT3 0 =
        some (tin2, out2, t1b, t2b, t3b, idx2) →
      SortedRun wCmp (seg wTin.data wTin.pos (wTin.size - wTin.pos))
        (seg out2.data wOut.pos (wTin.size - wTin.pos))) :=
  c1_sort_correct wCmp (fun _ => 0) wCmp_swo wTin wOut wT1 wT2 wT3 0 10 0
    (by decide) (by decide) (by unfold TapeInv; decide) (by decide) (by decide)
    (by decide) (by decide) (by decide) (by decide) (by decide) (by decide)

theorem c2_frame_witness :
    ((sort_ram wCmp wTin wOut).1.data = wTin.data ∧
     (sort_ram wCmp wTin wOut).1.pos = wTin.pos ∧
     (sort_ram wCmp wTin wOut).2.pos = wOut.pos + (wTin.size - wTin.pos)) ∧
    (∀ tin2 out2 t1b t2b t3b idx2,
      sort_ext wCmp (fun _ => 0) 0 10 wTin wOut wT1 wT2 wT3 0 =
        some (tin2, out2, t1b, t2b, t3b, idx2) →
      tin2.data = wTin.data ∧ tin2.pos = wTin.pos ∧
      out2.pos = wOut.pos + (wTin.size - wTin.pos)) :=
  c2_frame wCmp (fun _ => 0) wCmp_swo wTin wOut wT1 wT2 wT3 0 10 0
    (by decide) (by decide) (by unfold TapeInv; decide) (by decide) (by decide)
    (by decide) (by decide) (by decide) (by decide) (by decide) (by decide)

/-- C3, the claim as frozen, is false at a two-cell all-equal input: the
ingestion summary observes 2 comparator calls, not `n − 1 = 1`, because the
equality test `!cmp(element_, value) && !cmp(value, element_)` invokes the
comparator twice per element after the first. -/
theorem c3_claim_counterexample :
    ingestCalls wCmp (fun _ => 0) wTinEq.size wTinEq {} 0 = 2 ∧
    ((2 : Nat) ≠ wTinEq.size - wTinEq.pos - 1) := by
  decide

theorem c3_equal_fastpath_witness :
    ingestCalls wCmp (fun _ => 0) wTinEq.size wTinEq {} 0 =
      2 * ((wTinEq.size - wTinEq.pos) - 1) ∧
    (∀ tin1 tmp1a info idx1,
      ingest wCmp (fun _ => 0) wTinEq.size wTinEq wT1b {} 0 =
        (tin1, tmp1a, info, idx1) →
      info.equal = true ∧
      sortImplCalls wCmp (fun _ => 0) 0 1 wOut2 tmp1a wT2b wT3b info idx1 =
        some 0 ∧
      ∃ out1 cur1,
        sort_impl wCmp (fun _ => 0) 0 1 wOut2 tmp1a wT2b wT3b info idx1 =
          some (out1, cur1, wT2b, wT3b, idx1) ∧
        out1.pos = wOut2.pos + (wTinEq.size - wTinEq.pos) ∧
        seg out1.data wOut2.pos (wTinEq.size - wTinEq.pos) =
          (seg wTinEq.data wTinEq.pos (wTinEq.size - wTinEq.pos)).reverse) :=
  c3_equal_fastpath wCmp (fun _ => 0) wCmp_swo wTinEq wOut2 wT1b wT2b wT3b 0 0
    (by decide) (by decide) (by unfold TapeInv; decide) (by decide) (by decide)
    (by decide) (by decide) (by decide) (by unfold AllEquiv; decide)

theorem c6_split_post_witness :
    (split wCmp (fun _ => 0) 3 wSrc wT1 wT2 {} {} 3 0).1.pos + 3 = wSrc.pos ∧
    (split wCmp (fun _ => 0) 3 wSrc wT1 wT2 {} {} 3 0).2.1.pos = wT1.pos +
      ((seg wSrc.data (wSrc.pos - 3) 3).reverse.filter
        (fun v => wCmp v 3)).length ∧
    (split wCmp (fun _ => 0) 3 wSrc wT1 wT2 {} {} 3 0).2.2.1.pos = wT2.pos +
      (3 - ((seg wSrc.data (wSrc.pos - 3) 3).reverse.filter
        (fun v => wCmp v 3)).length) ∧
    (split wCmp (fun _ => 0) 3 wSrc wT1 wT2 {} {} 3 0).2.2.2.1.size +
      (split wCmp (fun _ => 0) 3 wSrc wT1 wT2 {} {} 3 0).2.2.2.2.1.size = 3 :=
  c6_split_post wCmp (fun _ => 0) wCmp_swo 3 3 wSrc wT1 wT2 0
    (split wCmp (fun _ => 0) 3 wSrc wT1 wT2 {} {} 3 0).1
    (split wCmp (fun _ => 0) 3 wSrc wT1 wT2 {} {} 3 0).2.1
    (split wCmp (fun _ => 0) 3 wSrc wT1 wT2 {} {} 3 0).2.2.1
    (split wCmp (fun _ => 0) 3 wSrc wT1 wT2 {} {} 3 0).2.2.2.1
    (split wCmp (fun _ => 0) 3 wSrc wT1 wT2 {} {} 3 0).2.2.2.2.1
    (split wCmp (fun _ => 0) 3 wSrc wT1 wT2 {} {} 3 0).2.2.2.2.2
    (by decide) (by decide) (by decide) (by decide) (by decide) (by decide)
    rfl

theorem c7_equal_flag_witness :
    ((info_updates wCmp (fun _ => 0) [4, 4, 4] {} 0).1.equal = true ↔
      AllEquiv wCmp [4, 4, 4]) ∧
    ({} : subarray_info).equal = true ∧ ({} : subarray_info).size = 0 :=
  c7_equal_flag wCmp (fun _ => 0) wCmp_swo [4, 4, 4] 0

theorem c9_seek_delay_saturating_witness :
    seekDelay 5 (2 ^ 63) (-3) =
      min MAX_SIZE_T (5 + 2 ^ 63 * (Int.natAbs (-3))) :=
  c9_seek_delay_saturating 5 (2 ^ 63) (-3) (by decide) (by decide) (by decide)

theorem c8_construction_witness :
    tapeCtor true { content := [7], good := true } 1 2 0 =
      .error .contract_violation :=
  (c8_construction true { content := [7], good := true } 1 2 0).1 (by decide)

theorem c10_set_error_state_witness :
    ((wOut.setE false 9).2 = false →
      (wOut.setE false 9).1.consistent = false ∧
      (wOut.setE false 9).1.pos = wOut.pos ∧
      (wOut.setE false 9).1.size = wOut.size ∧
      (wOut.setE false 9).1.stream_offset = wOut.stream_offset ∧
      TapeInv (wOut.setE false 9).1) ∧
    ((wOut.setE false 9).2 = true →
      (wOut.setE false 9).1.consistent = true ∧
      (wOut.setE false 9).1.buffer = 9 ∧
      (wOut.setE false 9).1.pos = wOut.pos ∧
      (wOut.setE false 9).1.size = wOut.size ∧
      (wOut.setE false 9).1.stream_offset = wOut.stream_offset ∧
      TapeInv (wOut.setE false 9).1) :=
  c10_set_error_state wOut false 9 (by decide) (by decide)
